import Mathlib

/-!
# ClipVault front end: history log, filtered view and row rendering

A shallow embedding of `src/frontend/src/main.js`.

* JavaScript strings are Lean strings (sequences of Unicode code points).
* `String.prototype.toLowerCase` follows the Unicode default case conversion.  The rows of
  the Unicode tables for the characters above U+007F are a parameter `U`; the rows of the
  ASCII characters and the rule for the capital sigma are written out.
* `entry.content` is an object whose own properties hold strings; it is kept as the
  list of its properties in the order `JSON.stringify` enumerates them.  The two valid
  wire shapes are `[("Text", t)]` and `[("ImageBase64", p)]`.  Entries of any other shape,
  for which the script can throw, are treated in the section on received values at the
  end of the definitions.
* Array objects live in a store addressed by reference, so that the in-place
  `Array.prototype.reverse` and `Array.prototype.push` are visible through every alias.
* The DOM is reduced to what the script touches: the value of `#filter`, the children of
  `#list`, and the sequence of `invoke` calls made so far.
-/

namespace ClipVault

/-! ## Strings -/

/-- How the scan for the final-sigma rule treats a character: as a cased letter (Unicode
property `Cased`), as a character to skip (`Case_Ignorable`), or as neither. -/
inductive CaseKind where
  | cased
  | ignorable
  | neither
deriving DecidableEq

/-- The rows of the Unicode Character Database that `toLowerCase` consults for the
characters above U+007F: the unconditional lower-case mapping of a character (one or more
characters) and its kind for the final-sigma rule; for a character that is both cased and
skipped, the kind is the one the scan of the host takes. -/
structure CaseTables where
  lower : Char → List Char
  kind : Char → CaseKind

/-- Lower-case mapping of one character out of context: `A`–`Z` go to `a`–`z`, the other
ASCII characters stay, the rest is read from the tables. -/
def lowerOf (U : CaseTables) (c : Char) : List Char :=
  if c.toNat < 128 then [c.toLower] else U.lower c

/-- Kind of a character: among the ASCII characters the letters are cased, and the
apostrophe, full stop, colon, circumflex and grave accent are skipped. -/
def kindOf (U : CaseTables) (c : Char) : CaseKind :=
  if c.toNat < 128 then
    if (65 ≤ c.toNat ∧ c.toNat ≤ 90) ∨ (97 ≤ c.toNat ∧ c.toNat ≤ 122) then CaseKind.cased
    else if c.toNat = 39 ∨ c.toNat = 46 ∨ c.toNat = 58 ∨ c.toNat = 94 ∨ c.toNat = 96 then
      CaseKind.ignorable
    else CaseKind.neither
  else U.kind c

/-- Going away from a position, is a cased letter met after skipped characters only?  The
list holds the characters in the order they are met. -/
def seesCased (U : CaseTables) : List Char → Bool
  | [] => false
  | c :: cs =>
    match kindOf U c with
    | CaseKind.cased => true
    | CaseKind.ignorable => seesCased U cs
    | CaseKind.neither => false

/-- Lower-case mapping of the character `c` standing between `before` (nearest character
first) and `after`.  A capital sigma U+03A3 that has a cased letter before it and none
after it becomes the final sigma U+03C2; every other character is mapped out of context. -/
def lowerAt (U : CaseTables) (before : List Char) (c : Char) (after : List Char) : List Char :=
  if c.toNat = 931 ∧ seesCased U before = true ∧ seesCased U after = false then [Char.ofNat 962]
  else lowerOf U c

/-- Lower-casing of the stretch `l` of a string, standing between `before` (nearest
character first) and `after`. -/
def lowerSeg (U : CaseTables) : List Char → List Char → List Char → List Char
  | _, [], _ => []
  | before, c :: cs, after => lowerAt U before c (cs ++ after) ++ lowerSeg U (c :: before) cs after

/-- The method `String.prototype.toLowerCase`: the Unicode default case conversion, every
character replaced by its lower-case mapping in its context. -/
def toLowerCase (U : CaseTables) (s : String) : String :=
  ⟨lowerSeg U [] s.data []⟩

/-- An excerpt of the Unicode tables, for evaluating examples whose characters above
U+007F are among those listed here: the capital sigma, the letter É, the Kelvin sign and
the capital I with dot above with their lower-case mappings, the small sigmas and é as
cased letters, the combining dot above as a skipped character. -/
def excerpt : CaseTables where
  lower c :=
    if c.toNat = 931 then [Char.ofNat 963]
    else if c.toNat = 201 then [Char.ofNat 233]
    else if c.toNat = 8490 then ['k']
    else if c.toNat = 304 then ['i', Char.ofNat 775]
    else [c]
  kind c :=
    if c.toNat = 931 ∨ c.toNat = 963 ∨ c.toNat = 962 ∨ c.toNat = 201 ∨ c.toNat = 233
        ∨ c.toNat = 8490 ∨ c.toNat = 304 then CaseKind.cased
    else if c.toNat = 775 then CaseKind.ignorable
    else CaseKind.neither

/-- Does `needle` occur as a contiguous block of `hay`? -/
def includesAux (needle : List Char) : List Char → Bool
  | [] => needle.isEmpty
  | c :: cs => needle.isPrefixOf (c :: cs) || includesAux needle cs

/-- The method `String.prototype.includes`: substring test. -/
def includes (s needle : String) : Bool :=
  includesAux needle.data s.data

/-- The characters matched by `\s` in a regular expression, which are also the
characters removed by `String.prototype.trim`: TAB, LF, VT, FF, CR, SPACE, NBSP,
U+1680, U+2000–U+200A, U+2028, U+2029, U+202F, U+205F, U+3000 and U+FEFF. -/
def isWhiteSpace (c : Char) : Bool :=
  [9, 10, 11, 12, 13, 32, 160, 5760, 8232, 8233, 8239, 8287, 12288, 65279].contains c.toNat
    || (8192 ≤ c.toNat && c.toNat ≤ 8202)

/-- Scanner for `replace(/\s+/g, " ")`.  The flag tells whether the character just
before the rest of the input belonged to a whitespace match, whose single
replacement space has then already been written. -/
def replaceWhiteSpaceAux : Bool → List Char → List Char
  | _, [] => []
  | inMatch, c :: cs =>
    if isWhiteSpace c then
      if inMatch then replaceWhiteSpaceAux true cs else ' ' :: replaceWhiteSpaceAux true cs
    else c :: replaceWhiteSpaceAux false cs

/-- The call `s.replace(/\s+/g, " ")`: every maximal run of whitespace becomes one space. -/
def replaceWhiteSpace (s : String) : String :=
  ⟨replaceWhiteSpaceAux false s.data⟩

/-- The method `String.prototype.trim`: whitespace is removed from both ends. -/
def trim (s : String) : String :=
  ⟨((s.data.dropWhile isWhiteSpace).reverse.dropWhile isWhiteSpace).reverse⟩

/-! ## Entries -/

/-- The value of `entry.content`: an object with string-valued properties. -/
structure Content where
  props : List (String × String)
deriving DecidableEq

/-- A clipboard entry as delivered by the backend. -/
structure Entry where
  content : Content
deriving DecidableEq

/-- Property read `content[key]`; `none` stands for `undefined`. -/
def Content.get (c : Content) (key : String) : Option String :=
  (c.props.find? (fun p => p.1 = key)).map Prod.snd

/-- Truthiness of a value that is a string or `undefined`. -/
def truthy : Option String → Bool
  | some v => decide (v ≠ "")
  | none => false

/-- Conversion to string inside a template literal. -/
def toStr : Option String → String
  | some v => v
  | none => "undefined"

/-! ## `JSON.stringify` -/

/-- Lower-case hexadecimal digit. -/
def hexDigit (n : Nat) : Char :=
  Char.ofNat (if n < 10 then 48 + n else 87 + n)

/-- The characters `JSON.stringify` writes for one character of a string: the
two-character escapes for BS, TAB, LF, FF, CR, the double quote and the backslash,
`\u00xx` for the remaining control characters, the character itself otherwise. -/
def quoteChar (c : Char) : List Char :=
  if c.toNat = 8 then [Char.ofNat 92, 'b']
  else if c.toNat = 9 then [Char.ofNat 92, 't']
  else if c.toNat = 10 then [Char.ofNat 92, 'n']
  else if c.toNat = 12 then [Char.ofNat 92, 'f']
  else if c.toNat = 13 then [Char.ofNat 92, 'r']
  else if c.toNat = 34 then [Char.ofNat 92, Char.ofNat 34]
  else if c.toNat = 92 then [Char.ofNat 92, Char.ofNat 92]
  else if c.toNat < 32 then
    [Char.ofNat 92, 'u', '0', '0', hexDigit (c.toNat / 16), hexDigit (c.toNat % 16)]
  else [c]

/-- A string as a JSON string literal. -/
def quoteJSONString (s : String) : List Char :=
  Char.ofNat 34 :: (s.data.flatMap quoteChar ++ [Char.ofNat 34])

/-- One `"key":"value"` member. -/
def serializeProperty (p : String × String) : List Char :=
  quoteJSONString p.1 ++ ':' :: quoteJSONString p.2

/-- The call `JSON.stringify(content)` for an object with string-valued properties. -/
def JSON.stringify (c : Content) : String :=
  ⟨Char.ofNat 123 :: ([','].intercalate (c.props.map serializeProperty) ++ [Char.ofNat 125])⟩

/-! ## The page -/

/-- The preview element put inside a row. -/
inductive Preview where
  | span (className textContent : String)
  | img (src : String)
deriving DecidableEq

/-- A `<li>` row: its preview child and the entry captured by its click handler
`() => invoke("restore_clip", { entry })`. -/
structure Li where
  preview : Preview
  onclick : Entry
deriving DecidableEq

/-- One call `invoke(cmd)` or `invoke(cmd, { entry })`. -/
structure Invocation where
  cmd : String
  entry : Option Entry
deriving DecidableEq

/-- Program state: the array store, the reference held by the variable `items`, the
value of the filter box, the children of the list element and the calls made to the
backend. -/
structure State where
  arrays : List (List Entry)
  items : Nat
  filterValue : String
  list : List Li
  invoked : List Invocation
deriving DecidableEq

/-- Contents of the array behind a reference. -/
def State.deref (s : State) (r : Nat) : List Entry :=
  s.arrays.getD r []

/-- Contents of the history log `items`. -/
def State.log (s : State) : List Entry :=
  s.deref s.items

/-- The variable `items` refers to an array of the store. -/
def State.WF (s : State) : Prop :=
  s.items < s.arrays.length

/-- A new array object; returns the state and the new reference. -/
def State.alloc (s : State) (a : List Entry) : State × Nat :=
  ({ s with arrays := s.arrays ++ [a] }, s.arrays.length)

/-- The method `Array.prototype.slice()` without arguments: a fresh copy. -/
def slice (s : State) (r : Nat) : State × Nat :=
  s.alloc (s.deref r)

/-- The method `Array.prototype.reverse()`: reverses the receiver in place and returns it. -/
def reverse (s : State) (r : Nat) : State × Nat :=
  ({ s with arrays := s.arrays.set r (s.deref r).reverse }, r)

/-- The method `Array.prototype.filter(f)`: a fresh array of the elements `f` accepts. -/
def filter (s : State) (r : Nat) (f : Entry → Bool) : State × Nat :=
  s.alloc ((s.deref r).filter f)

/-- The method `Array.prototype.forEach(f)` for a callback that leaves the receiver alone. -/
def forEach (s : State) (r : Nat) (f : State → Entry → State) : State :=
  (s.deref r).foldl f s

/-- The method `Array.prototype.push(e)`: appends to the receiver in place. -/
def push (s : State) (r : Nat) (e : Entry) : State :=
  { s with arrays := s.arrays.set r (s.deref r ++ [e]) }

/-- The `<li>` built by `addLi` before it is appended to the list. -/
def createLi (entry : Entry) : Li :=
  let preview :=
    if truthy (entry.content.get "Text") then
      Preview.span "text" (trim (replaceWhiteSpace ((entry.content.get "Text").getD "")))
    else Preview.img ("data:image/png;base64," ++ toStr (entry.content.get "ImageBase64"))
  { preview := preview, onclick := entry }

/-- The function `addLi(entry)`: builds the row and appends it to the list element. -/
def addLi (s : State) (entry : Entry) : State :=
  { s with list := s.list ++ [createLi entry] }

/-- The callback given to `filter` in `render`; `needle` is already lower-cased. -/
def keep (U : CaseTables) (needle : String) (e : Entry) : Bool :=
  if needle = "" then true
  else includes (toLowerCase U (JSON.stringify e.content)) needle

/-- The function `render()`: empties the list element, then adds a row for every entry of a
reversed copy of `items` that passes the filter. -/
def render (U : CaseTables) (s : State) : State :=
  let s := { s with list := [] }
  let needle := toLowerCase U s.filterValue
  let (s, copy) := slice s s.items
  let (s, reversed) := reverse s copy
  let (s, kept) := filter s reversed (keep U needle)
  forEach s kept addLi

/-- The call `invoke("restore_clip", { entry })`. -/
def restoreClip (entry : Entry) : Invocation :=
  { cmd := "restore_clip", entry := some entry }

/-- What the host can deliver to the script. -/
inductive Event where
  | input (value : String)
  | history (hist : List Entry)
  | clip (payload : Entry)
  | click (row : Nat)
deriving DecidableEq

/-- State once the module body has run: `items` is a new empty array, the handlers are
installed and `get_history` has been requested.  The filter text and the list children
are those of the document. -/
def bootstrap (filterValue : String) (list : List Li) : State :=
  { arrays := [[]], items := 0, filterValue := filterValue, list := list,
    invoked := [{ cmd := "get_history", entry := none }] }

/-- The handler run for one event. -/
def step (U : CaseTables) (s : State) : Event → State
  | Event.input value => render U { s with filterValue := value }
  | Event.history hist =>
    let (s, r) := s.alloc hist
    render U { s with items := r }
  | Event.clip payload => render U (push s s.items payload)
  | Event.click row =>
    match s.list.get? row with
    | some li => { s with invoked := s.invoked ++ [restoreClip li.onclick] }
    | none => s

/-- Run a sequence of events in delivery order. -/
def run (U : CaseTables) (s : State) (evs : List Event) : State :=
  evs.foldl (step U) s

/-! ## The filtered view of the specification -/

/-- The view `FilterEngine.view(log, needle)`: newest first, keeping the entries whose
stringified content contains the lower-cased needle. -/
def view (U : CaseTables) (log : List Entry) (needle : String) : List Entry :=
  log.reverse.filter (keep U (toLowerCase U needle))

/-- Entry with text content. -/
def textEntry (t : String) : Entry :=
  { content := { props := [("Text", t)] } }

/-- Entry with image content. -/
def imageEntry (payload : String) : Entry :=
  { content := { props := [("ImageBase64", payload)] } }

/-- The entries pushed by the `clip` events of a trace, in delivery order. -/
def pushes (evs : List Event) : List Entry :=
  evs.filterMap fun ev => match ev with
    | Event.clip p => some p
    | _ => none

/-- Is the event the resolution of `get_history`? -/
def Event.isHistory : Event → Bool
  | Event.history _ => true
  | _ => false

/-- No event of the trace is a resolution of `get_history`. -/
def NoReload (evs : List Event) : Prop :=
  ∀ ev ∈ evs, ev.isHistory = false

instance (evs : List Event) : Decidable (NoReload evs) :=
  inferInstanceAs (Decidable (∀ ev ∈ evs, ev.isHistory = false))

/-- The rows on display are those of a render of the present log and filter value. -/
def Rendered (U : CaseTables) (s : State) : Prop :=
  s.list = (view U s.log s.filterValue).map createLi

/-! ## Notions used to state the search properties -/

/-- Characters that `JSON.stringify` does not copy as they are: the control characters
below U+0020, the double quote and the backslash. -/
def needsEscape (c : Char) : Bool :=
  decide (c.toNat < 32) || decide (c.toNat = 34) || decide (c.toNat = 92)

/-- The base64 alphabet: `A`–`Z`, `a`–`z`, `0`–`9`, `+`, `/` and the padding `=`. -/
def isBase64Char (c : Char) : Bool :=
  (decide (65 ≤ c.toNat) && decide (c.toNat ≤ 90)) || (decide (97 ≤ c.toNat) && decide (c.toNat ≤ 122))
    || (decide (48 ≤ c.toNat) && decide (c.toNat ≤ 57))
    || decide (c.toNat = 43) || decide (c.toNat = 47) || decide (c.toNat = 61)

/-- The content with every key and value lower-cased. -/
def Content.foldCase (U : CaseTables) (c : Content) : Content :=
  { props := c.props.map fun p => (toLowerCase U p.1, toLowerCase U p.2) }

/-- Every character of the string is an ASCII character. -/
def IsAscii (s : String) : Prop :=
  ∀ c ∈ s.data, c.toNat < 128

instance (s : String) : Decidable (IsAscii s) :=
  inferInstanceAs (Decidable (∀ c ∈ s.data, c.toNat < 128))

/-- The string holds no capital sigma U+03A3. -/
def SigmaFree (s : String) : Prop :=
  ∀ c ∈ s.data, c.toNat ≠ 931

instance (s : String) : Decidable (SigmaFree s) :=
  inferInstanceAs (Decidable (∀ c ∈ s.data, c.toNat ≠ 931))

/-- The string holds no control character below U+0020. -/
def ControlFree (s : String) : Prop :=
  ∀ c ∈ s.data, 32 ≤ c.toNat

instance (s : String) : Decidable (ControlFree s) :=
  inferInstanceAs (Decidable (∀ c ∈ s.data, 32 ≤ c.toNat))

/-- The string holds no character that `JSON.stringify` escapes. -/
def EscapeFree (s : String) : Prop :=
  ∀ c ∈ s.data, needsEscape c = false

instance (s : String) : Decidable (EscapeFree s) :=
  inferInstanceAs (Decidable (∀ c ∈ s.data, needsEscape c = false))

/-- No key and no value of the content holds a capital sigma U+03A3. -/
def Content.HasNoSigma (c : Content) : Prop :=
  ∀ p ∈ c.props, SigmaFree p.1 ∧ SigmaFree p.2

instance (c : Content) : Decidable c.HasNoSigma :=
  inferInstanceAs (Decidable (∀ p ∈ c.props, SigmaFree p.1 ∧ SigmaFree p.2))

/-- The tables map no character above U+007F to a character that `JSON.stringify`
escapes, as is the case of the Unicode tables. -/
def CaseTables.Plain (U : CaseTables) : Prop :=
  ∀ c : Char, 128 ≤ c.toNat → ∀ d ∈ U.lower c, needsEscape d = false

/-! ## Notions used to state the display property -/

/-- The maximal runs of non-whitespace characters of a text, in order: the text is cut
at every whitespace character and the empty pieces are dropped. -/
def runs (l : List Char) : List (List Char) :=
  (l.splitOnP isWhiteSpace).filter fun r => !r.isEmpty

/-- The runs of a text joined by single spaces. -/
def joinRuns (t : String) : String :=
  ⟨[' '].intercalate (runs t.data)⟩

/-- The property `Node.textContent` of a row: the text of its span; an image has no text. -/
def Li.textContent (li : Li) : String :=
  match li.preview with
  | Preview.span _ text => text
  | Preview.img _ => ""

/-! ## Entries as received

The backend can deliver an entry whose content is not one of the two valid shapes.  The
definitions of this section follow `render` and `addLi` on such entries, where reading a
property of `null` or `undefined`, calling `replace` on a value that is not a string, and
calling `toLowerCase` on `undefined` throw a `TypeError`.  Only the rows of the list
element and the escape of the error are followed; the array store is as above. -/

namespace Wire

/-- A JSON value held by a property of a content, as far as the script can observe it: a
string, or a value of another kind (number, boolean, null, array, object), given by the
text `JSON.stringify` writes for it, the text a template literal writes for it (`none`
when the conversion to a string throws a `TypeError`, as for an object whose `toString`
and `valueOf` properties are not functions) and its truthiness. -/
inductive Value where
  | str (s : String)
  | other (json : String) (text : Option String) (truthy : Bool)
deriving DecidableEq

/-- The value of `entry.content` as received: an object, `null`, `undefined` (the entry
has no content), or a JSON value of another kind (array, string, number, boolean), given
by its JSON text. -/
inductive Content where
  | obj (props : List (String × Value))
  | null
  | undefined
  | other (json : String)
deriving DecidableEq

/-- An entry as received. -/
structure Entry where
  content : Content
deriving DecidableEq

/-- A row and the received entry captured by its click handler. -/
structure Li where
  preview : Preview
  onclick : Entry
deriving DecidableEq

/-- Property read `content[key]`.  The outer `none` stands for the `TypeError` of reading
a property of `null` or `undefined`, the inner one for the value `undefined`. -/
def Content.get (c : Content) (key : String) : Option (Option Value) :=
  match c with
  | Content.obj props => some ((props.find? (fun p => p.1 = key)).map Prod.snd)
  | Content.other _ => some none
  | Content.null => none
  | Content.undefined => none

/-- Truthiness of a property value. -/
def truthy : Option Value → Bool
  | none => false
  | some (Value.str s) => decide (s ≠ "")
  | some (Value.other _ _ t) => t

/-- Conversion to string inside a template literal; `none` stands for a `TypeError`. -/
def toStr : Option Value → Option String
  | none => some "undefined"
  | some (Value.str s) => some s
  | some (Value.other _ text _) => text

/-- The row built by `addLi`, or `none` when `addLi` throws a `TypeError`: at the read of
`entry.content.Text` for a content that is `null` or `undefined`, at the call of `replace`
for a truthy `Text` that is not a string, or in the template literal for a payload that has
no conversion to a string.  Nothing has been appended to the list when the error is
thrown. -/
def createLi (entry : Entry) : Option Li :=
  match entry.content.get "Text" with
  | none => none
  | some text =>
    if truthy text then
      match text with
      | some (Value.str s) =>
        some { preview := Preview.span "text" (trim (replaceWhiteSpace s)), onclick := entry }
      | _ => none
    else
      match entry.content.get "ImageBase64" with
      | none => none
      | some payload =>
        match toStr payload with
        | none => none
        | some text =>
          some { preview := Preview.img ("data:image/png;base64," ++ text), onclick := entry }

/-- The text `JSON.stringify` writes for a property value. -/
def Value.json : Value → List Char
  | Value.str s => quoteJSONString s
  | Value.other json _ _ => json.data

/-- The call `JSON.stringify(content)`; `none` stands for the result `undefined`. -/
def stringify : Content → Option String
  | Content.obj props =>
    some ⟨Char.ofNat 123 ::
      ([','].intercalate (props.map fun p => quoteJSONString p.1 ++ ':' :: p.2.json)
        ++ [Char.ofNat 125])⟩
  | Content.null => some "null"
  | Content.undefined => none
  | Content.other json => some json

/-- The callback given to `filter` in `render`, or `none` when it throws a `TypeError`:
`toLowerCase` is called on `undefined`. -/
def keep (U : CaseTables) (needle : String) (e : Entry) : Option Bool :=
  if needle = "" then some true
  else
    match stringify e.content with
    | none => none
    | some json => some (includes (toLowerCase U json) needle)

/-- The method `Array.prototype.filter(f)` for a callback that can throw: the callback is
called on the elements in order, and the first error ends the call. -/
def filter (f : Entry → Option Bool) : List Entry → Option (List Entry)
  | [] => some []
  | e :: es =>
    match f e with
    | none => none
    | some b =>
      match filter f es with
      | none => none
      | some kept => some (if b then e :: kept else kept)

/-- The method `Array.prototype.forEach(addLi)`: the rows appended to the list, in order,
and whether a `TypeError` ended the loop. -/
def forEach : List Entry → List Li × Bool
  | [] => ([], false)
  | e :: es =>
    match createLi e with
    | none => ([], true)
    | some li => (li :: (forEach es).1, (forEach es).2)

/-- The filtered view of received entries: newest first, or `none` when the filter
callback throws. -/
def view (U : CaseTables) (items : List Entry) (filterValue : String) : Option (List Entry) :=
  filter (keep U (toLowerCase U filterValue)) items.reverse

/-- The function `render()` on received entries: the rows of the list element afterwards,
which is emptied first, and whether a `TypeError` escaped. -/
def render (U : CaseTables) (items : List Entry) (filterValue : String) : List Li × Bool :=
  match view U items filterValue with
  | none => ([], true)
  | some kept => forEach kept

end Wire

/-- A well-formed entry as a received entry. -/
def Entry.wire (e : Entry) : Wire.Entry :=
  { content := Wire.Content.obj (e.content.props.map fun p => (p.1, Wire.Value.str p.2)) }

/-- A row holding well-formed entries as a row holding received entries. -/
def Li.wire (li : Li) : Wire.Li :=
  { preview := li.preview, onclick := li.onclick.wire }

/-! ## The array store and `render` -/

variable (U : CaseTables)

theorem foldl_addLi (l : List Entry) (s : State) :
    l.foldl addLi s = { s with list := s.list ++ l.map createLi } := by
  induction l generalizing s with
  | nil => simp
  | cons e es ih => simp [List.foldl_cons, ih, addLi]

theorem getD_append_length (a : List (List Entry)) (x : List Entry) (b : List (List Entry)) :
    (a ++ x :: b).getD a.length [] = x := by
  rw [List.getD_eq_getElem?_getD, List.getElem?_append_right (Nat.le_refl _)]
  simp

theorem getD_append_of_lt (a b : List (List Entry)) (i : Nat) (h : i < a.length) :
    (a ++ b).getD i [] = a.getD i [] := by
  rw [List.getD_eq_getElem?_getD, List.getD_eq_getElem?_getD, List.getElem?_append_left h]

theorem getD_of_length_le (a : List (List Entry)) (i : Nat) (h : a.length ≤ i) :
    a.getD i [] = [] := by
  rw [List.getD_eq_getElem?_getD, List.getElem?_eq_none h]; rfl

theorem set_append_length (a : List (List Entry)) (x y : List Entry) :
    (a ++ [x]).set a.length y = a ++ [y] := by
  rw [List.set_append_right _ _ (Nat.le_refl _)]
  simp

theorem getD_append_succ (a : List (List Entry)) (x y : List Entry) :
    (a ++ [x, y]).getD (a.length + 1) [] = y := by
  rw [List.getD_eq_getElem?_getD, List.getElem?_append_right (Nat.le_succ _)]
  simp

theorem render_eq (s : State) :
    render U s = { s with
      arrays := s.arrays ++ [s.log.reverse, view U s.log s.filterValue],
      list := (view U s.log s.filterValue).map createLi } := by
  simp only [render, slice, reverse, filter, forEach, State.alloc, State.deref, State.log, view,
    foldl_addLi, getD_append_length, set_append_length, List.length_append, List.length_singleton,
    List.append_assoc, List.singleton_append, List.nil_append]
  rw [getD_append_succ]

theorem render_log (s : State) : (render U s).log = s.log := by
  rw [render_eq]
  simp only [State.log, State.deref]
  rcases Nat.lt_or_ge s.items s.arrays.length with h | h
  · exact getD_append_of_lt _ _ _ h
  · rw [getD_of_length_le _ _ h]
    obtain ⟨k, hk⟩ := Nat.exists_eq_add_of_le h
    rw [hk, List.getD_eq_getElem?_getD, List.getElem?_append_right (Nat.le_add_right _ _),
      Nat.add_sub_cancel_left]
    match k with
    | 0 => rfl
    | 1 => rfl
    | k + 2 => rfl

theorem render_WF (s : State) (h : s.WF) : (render U s).WF := by
  rw [render_eq]
  simp only [State.WF, List.length_append] at h ⊢
  omega

theorem render_items (s : State) : (render U s).items = s.items := by
  rw [render_eq]

theorem render_list (s : State) : (render U s).list = (view U s.log s.filterValue).map createLi := by
  rw [render_eq]

theorem render_invoked (s : State) : (render U s).invoked = s.invoked := by
  rw [render_eq]

theorem render_filterValue (s : State) : (render U s).filterValue = s.filterValue := by
  rw [render_eq]

theorem push_log (s : State) (h : s.WF) (e : Entry) : (push s s.items e).log = s.log ++ [e] := by
  have h' : s.items < s.arrays.length := h
  simp only [push, State.log, State.deref, List.getD_eq_getElem?_getD]
  rw [List.getElem?_set_self h']
  rfl

theorem push_WF (s : State) (h : s.WF) (e : Entry) : (push s s.items e).WF := by
  simpa [push, State.WF] using h

theorem step_history_log (s : State) (h : List Entry) : (step U s (Event.history h)).log = h := by
  simp only [step, State.alloc, render_log]
  exact getD_append_length _ _ _

theorem step_history_WF (s : State) (h : List Entry) : (step U s (Event.history h)).WF := by
  simp only [step, State.alloc]
  apply render_WF
  simp [State.WF]

theorem step_log (s : State) (h : s.WF) (ev : Event) (hev : ev.isHistory = false) :
    (step U s ev).log = s.log ++ pushes [ev] ∧ (step U s ev).WF := by
  cases ev with
  | input v =>
    refine ⟨?_, render_WF U _ h⟩
    simp only [step, render_log, pushes, List.filterMap_cons, List.filterMap_nil, List.append_nil]
    rfl
  | history hist => exact absurd hev (by simp [Event.isHistory])
  | clip p => exact ⟨by simp [step, render_log, push_log s h, pushes], render_WF U _ (push_WF s h p)⟩
  | click i =>
    simp only [step]
    cases s.list.get? i <;> exact ⟨by simp [pushes, State.log, State.deref], h⟩

theorem run_log (evs : List Event) (s : State) (h : s.WF) (hev : NoReload evs) :
    (run U s evs).log = s.log ++ pushes evs ∧ (run U s evs).WF := by
  induction evs generalizing s with
  | nil => simp [run, pushes, h]
  | cons ev evs ih =>
    have h1 := step_log U s h ev (hev ev (List.mem_cons_self _ _))
    have h2 := ih (step U s ev) h1.2 (fun e he => hev e (List.mem_cons_of_mem _ he))
    simp only [run, List.foldl_cons] at h2 ⊢
    refine ⟨?_, h2.2⟩
    rw [h2.1, h1.1, List.append_assoc]
    congr 1
    show _ = pushes ([ev] ++ evs)
    simp only [pushes, List.filterMap_append]

theorem view_empty (log : List Entry) : view U log "" = log.reverse := by
  have h : keep U (toLowerCase U "") = fun _ => true := by
    funext e
    rfl
  rw [view, h, List.filter_true]

theorem render_rendered (s : State) : Rendered U (render U s) := by
  rw [Rendered, render_list, render_log, render_filterValue]

theorem step_rendered (s : State) (ev : Event) (h : Rendered U s) : Rendered U (step U s ev) := by
  cases ev with
  | input v => exact render_rendered U _
  | history hist => exact render_rendered U _
  | clip p => exact render_rendered U _
  | click i =>
    simp only [step]
    cases s.list.get? i <;> exact h

theorem run_rendered (evs : List Event) (s : State) (h : Rendered U s) : Rendered U (run U s evs) := by
  induction evs generalizing s with
  | nil => exact h
  | cons ev evs ih => exact ih (step U s ev) (step_rendered U s ev h)

theorem run_cons (s : State) (ev : Event) (evs : List Event) :
    run U s (ev :: evs) = run U (step U s ev) evs :=
  rfl

theorem run_concat (s : State) (evs : List Event) (ev : Event) :
    run U s (evs ++ [ev]) = step U (run U s evs) ev := by
  simp [run, List.foldl_append]

theorem step_input_filterValue (s : State) (v : String) :
    (step U s (Event.input v)).filterValue = v :=
  render_filterValue U _

theorem run_input_last_filterValue (s : State) (evs : List Event) (v : String) :
    (run U s (evs ++ [Event.input v])).filterValue = v := by
  rw [run_concat]
  exact step_input_filterValue U _ _

theorem rows_after_history (s : State) (h : List Entry) (evs : List Event)
    (hev : NoReload evs) (hf : (run U (step U s (Event.history h)) evs).filterValue = "") :
    (run U (step U s (Event.history h)) evs).list = ((h ++ pushes evs).reverse).map createLi := by
  have hr : Rendered U (run U (step U s (Event.history h)) evs) :=
    run_rendered U evs _ (render_rendered U _)
  have hl := (run_log U evs _ (step_history_WF U s h) hev).1
  rw [step_history_log] at hl
  rw [hr, hf, hl, view_empty]

theorem noReload_clip_input (e : Entry) (v : String) :
    NoReload [Event.clip e, Event.input v] := by
  intro ev hev
  rcases List.mem_cons.1 hev with rfl | hev
  · rfl
  · rcases List.mem_cons.1 hev with rfl | hev
    · rfl
    · cases hev

theorem pushes_map_clip (ps : List Entry) : pushes (ps.map Event.clip) = ps := by
  induction ps with
  | nil => rfl
  | cons p ps ih =>
    show p :: pushes (ps.map Event.clip) = p :: ps
    rw [ih]

theorem noReload_map_clip (ps : List Entry) : NoReload (ps.map Event.clip) := by
  intro ev hev
  obtain ⟨p, _, rfl⟩ := List.mem_map.1 hev
  rfl

theorem run_clips_filterValue (ps : List Entry) (s : State) :
    (run U s (ps.map Event.clip)).filterValue = s.filterValue := by
  induction ps generalizing s with
  | nil => rfl
  | cons p ps ih =>
    rw [List.map_cons, run_cons, ih]
    exact render_filterValue U _

theorem step_history_filterValue (s : State) (h : List Entry) :
    (step U s (Event.history h)).filterValue = s.filterValue :=
  render_filterValue U _

/-- C1: once the bulk load `h` has been applied, and whatever push, filter-input and click
events follow it, a state whose filter value is empty shows one row per entry of
`reverse (h ++ pushes)`: newest first, each entry once.  So it is when the filter box is
empty and only pushes `ps` follow the bulk load, and in particular `seed [e1, e2]`,
`append e3` and a render with the empty needle give the rows of `[e3, e2, e1]`. -/
theorem render_empty_filter_shows_reverse_log (s : State) (h : List Entry) (evs : List Event)
    (hev : NoReload evs) (hf : (run U (step U s (Event.history h)) evs).filterValue = "") :
    (run U (step U s (Event.history h)) evs).list = ((h ++ pushes evs).reverse).map createLi ∧
    (run U (step U s (Event.history h)) evs).list.map Li.onclick = (h ++ pushes evs).reverse ∧
    (∀ ps : List Entry, s.filterValue = "" →
      (run U (step U s (Event.history h)) (ps.map Event.clip)).list
        = ((h ++ ps).reverse).map createLi) ∧
    ∀ e1 e2 e3 : Entry,
      (run U s [Event.history [e1, e2], Event.clip e3, Event.input ""]).list
        = [createLi e3, createLi e2, createLi e1] := by
  have h1 := rows_after_history U s h evs hev hf
  refine ⟨h1, ?_, ?_, ?_⟩
  · rw [h1, List.map_map]
    exact List.map_id _
  · intro ps hs
    have h2 := rows_after_history U s h (ps.map Event.clip) (noReload_map_clip ps)
      (by rw [run_clips_filterValue, step_history_filterValue, hs])
    rw [h2, pushes_map_clip]
  · intro e1 e2 e3
    have h2 := rows_after_history U s [e1, e2] [Event.clip e3, Event.input ""]
      (noReload_clip_input e3 "") (run_input_last_filterValue U _ [Event.clip e3] "")
    have h3 : pushes [Event.clip e3, Event.input ""] = [e3] := rfl
    rw [run_cons, h2, h3]
    rfl

theorem render_empty_filter_shows_reverse_log_witness :
    (run excerpt (step excerpt (bootstrap "x" []) (Event.history [textEntry "a"]))
        [Event.clip (imageEntry "QUJD"), Event.input "q", Event.click 0, Event.input ""]).list
      = [createLi (imageEntry "QUJD"), createLi (textEntry "a")] :=
  (render_empty_filter_shows_reverse_log excerpt (bootstrap "x" []) [textEntry "a"]
    [Event.clip (imageEntry "QUJD"), Event.input "q", Event.click 0, Event.input ""]
    (by decide)
    (run_input_last_filterValue excerpt _
      [Event.clip (imageEntry "QUJD"), Event.input "q", Event.click 0] "")).1

theorem iterate_render_log (n : Nat) (s : State) : ((render U)^[n] s).log = s.log := by
  induction n generalizing s with
  | zero => rfl
  | succ n ih => rw [Function.iterate_succ, Function.comp, ih, render_log]

theorem iterate_render_items (n : Nat) (s : State) : ((render U)^[n] s).items = s.items := by
  induction n generalizing s with
  | zero => rfl
  | succ n ih => rw [Function.iterate_succ, Function.comp, ih, render_items]

theorem iterate_render_filterValue (n : Nat) (s : State) :
    ((render U)^[n] s).filterValue = s.filterValue := by
  induction n generalizing s with
  | zero => rfl
  | succ n ih => rw [Function.iterate_succ, Function.comp, ih, render_filterValue]

theorem iterate_render_invoked (n : Nat) (s : State) :
    ((render U)^[n] s).invoked = s.invoked := by
  induction n generalizing s with
  | zero => rfl
  | succ n ih => rw [Function.iterate_succ, Function.comp, ih, render_invoked]

theorem iterate_render_list (n : Nat) (s : State) :
    ((render U)^[n + 1] s).list = (view U s.log s.filterValue).map createLi := by
  rw [Function.iterate_succ', Function.comp, render_list, iterate_render_log,
    iterate_render_filterValue]

theorem render_arrays_take (s : State) : (render U s).arrays.take s.arrays.length = s.arrays := by
  rw [render_eq]
  simp

theorem step_click (s : State) (i : Nat) :
    step U s (Event.click i) =
      { s with invoked := s.invoked ++ ((s.list.get? i).toList.map Li.onclick).map restoreClip } := by
  simp only [step]
  cases s.list.get? i <;> simp

/-- C6: after a render, however many renders came before it and whatever rows they left,
the list holds exactly one row per entry of the filtered view of the log, in view order,
and a click on row `i` makes exactly one call, `invoke("restore_clip", { entry })` with the
`i`-th entry of that view as `entry` (no call when there is no such row). -/
theorem render_rows_bound_to_view (s : State) (n : Nat) :
    ((render U)^[n + 1] s).list = (view U s.log s.filterValue).map createLi ∧
    ((render U)^[n + 1] s).list.length = (view U s.log s.filterValue).length ∧
    ((render U)^[n + 1] s).list.map Li.onclick = view U s.log s.filterValue ∧
    ∀ i : Nat, (step U ((render U)^[n + 1] s) (Event.click i)).invoked = s.invoked ++
      ((view U s.log s.filterValue).get? i).toList.map
        (fun e => Invocation.mk "restore_clip" (some e)) := by
  have h1 := iterate_render_list U n s
  refine ⟨h1, ?_, ?_, ?_⟩
  · rw [h1, List.length_map]
  · rw [h1, List.map_map]
    exact List.map_id _
  · intro i
    rw [step_click, h1, iterate_render_invoked]
    simp only [List.get?_eq_getElem?, List.getElem?_map]
    cases (view U s.log s.filterValue)[i]? <;> rfl

theorem iterate_render_WF (n : Nat) (s : State) (h : s.WF) : ((render U)^[n] s).WF := by
  induction n generalizing s with
  | zero => exact h
  | succ n ih =>
    rw [Function.iterate_succ, Function.comp]
    exact ih _ (render_WF U s h)

/-- C7: `render` leaves the history log as it was: the variable `items` still refers to
the same array, every array that existed before the render (the log among them) has the
same elements in the same order, and the same holds after any number of renders.  So two
pushes with any number of renders between them leave the log in arrival order. -/
theorem render_preserves_log (s : State) (n : Nat) (p q : Entry) :
    (render U s).log = s.log ∧
    (render U s).items = s.items ∧
    (render U s).arrays.take s.arrays.length = s.arrays ∧
    ((render U)^[n] s).log = s.log ∧
    ((render U)^[n] s).items = s.items ∧
    (s.WF → (step U ((render U)^[n] (step U s (Event.clip p))) (Event.clip q)).log = s.log ++ [p, q]) := by
  refine ⟨render_log U s, render_items U s, render_arrays_take U s, iterate_render_log U n s,
    iterate_render_items U n s, ?_⟩
  intro h
  have h1 := step_log U s h (Event.clip p) rfl
  have h2 := step_log U ((render U)^[n] (step U s (Event.clip p))) (iterate_render_WF U n _ h1.2)
    (Event.clip q) rfl
  rw [h2.1, iterate_render_log, h1.1, List.append_assoc]
  rfl

theorem render_preserves_log_witness :
    (step excerpt ((render excerpt)^[3] (step excerpt (bootstrap "" []) (Event.clip (textEntry "p"))))
        (Event.clip (textEntry "q"))).log
      = (bootstrap "" []).log ++ [textEntry "p", textEntry "q"] :=
  (render_preserves_log excerpt (bootstrap "" []) 3 (textEntry "p") (textEntry "q")).2.2.2.2.2
    Nat.one_pos

/-- C8: the completion handler of `get_history` replaces the log: whatever the state
before, and whatever events came before, the log afterwards is exactly the result `h`.
In particular a push of `e0` followed by the bulk load `[e1]` leaves the log `[e1]`. -/
theorem history_replaces_log (s : State) (h : List Entry) (evs : List Event) :
    (step U s (Event.history h)).log = h ∧
    (run U s (evs ++ [Event.history h])).log = h ∧
    ∀ (v : String) (l : List Li) (e0 e1 : Entry),
      (run U (bootstrap v l) [Event.clip e0]).log = [e0] ∧
      (run U (bootstrap v l) [Event.clip e0, Event.history [e1]]).log = [e1] := by
  refine ⟨step_history_log U s h, ?_, ?_⟩
  · rw [run_concat]
    exact step_history_log U _ h
  · intro v l e0 e1
    refine ⟨?_, ?_⟩
    · rw [run_cons]
      exact (step_log U (bootstrap v l) Nat.one_pos (Event.clip e0) rfl).1
    · rw [show [Event.clip e0, Event.history [e1]] = [Event.clip e0] ++ [Event.history [e1]]
        from rfl, run_concat]
      exact step_history_log U _ _

/-! ## Strings: substring test, lower-casing and JSON quoting -/

theorem includesAux_iff (n h : List Char) : includesAux n h = true ↔ n <:+: h := by
  induction h with
  | nil => simp [includesAux]
  | cons c cs ih =>
    rw [includesAux, Bool.or_eq_true, ih, List.infix_cons_iff, List.isPrefixOf_iff_prefix]

theorem includes_iff (s n : String) : includes s n = true ↔ n.data <:+: s.data :=
  includesAux_iff _ _

theorem prefix_of_not_mem (c : Char) (l a b : List Char) (hc : c ∉ l) (h : l <+: a ++ c :: b) :
    l <+: a := by
  induction a generalizing l with
  | nil =>
    cases l with
    | nil => exact List.nil_prefix
    | cons d l' =>
      rw [List.nil_append, List.cons_prefix_cons] at h
      exact absurd (h.1 ▸ List.mem_cons_self d l') hc
  | cons x a' ih =>
    cases l with
    | nil => exact List.nil_prefix
    | cons d l' =>
      rw [List.cons_append, List.cons_prefix_cons] at h
      rw [List.cons_prefix_cons]
      exact ⟨h.1, ih l' (fun hm => hc (List.mem_cons_of_mem _ hm)) h.2⟩

/-- An occurrence of `l` in `a ++ c :: b` lies in `a` or in `b` when `c` is not in `l`. -/
theorem infix_split (c : Char) (l a b : List Char) (hc : c ∉ l) (h : l <:+: a ++ c :: b) :
    l <:+: a ∨ l <:+: b := by
  induction a with
  | nil =>
    rw [List.nil_append, List.infix_cons_iff] at h
    rcases h with h | h
    · exact Or.inl (prefix_of_not_mem c l [] b hc h).isInfix
    · exact Or.inr h
  | cons x a' ih =>
    rw [List.cons_append, List.infix_cons_iff] at h
    rcases h with h | h
    · exact Or.inl (prefix_of_not_mem c l (x :: a') b hc h).isInfix
    · rcases ih h with h' | h'
      · exact Or.inl (List.infix_cons h')
      · exact Or.inr h'

theorem toLowerCase_data (s : String) : (toLowerCase U s).data = lowerSeg U [] s.data [] :=
  rfl

theorem lowerAt_of_ne_sigma (b a : List Char) (c : Char) (h : c.toNat ≠ 931) :
    lowerAt U b c a = lowerOf U c := by
  rw [lowerAt, if_neg]
  exact fun h' => h h'.1

theorem lowerOf_ascii (c : Char) (h : c.toNat < 128) : lowerOf U c = [c.toLower] :=
  if_pos h

theorem lowerSeg_sigmaFree (l : List Char) (h : ∀ c ∈ l, c.toNat ≠ 931) (b a : List Char) :
    lowerSeg U b l a = l.flatMap (lowerOf U) := by
  induction l generalizing b with
  | nil => rfl
  | cons c cs ih =>
    rw [lowerSeg, lowerAt_of_ne_sigma U _ _ c (h c (List.mem_cons_self _ _)),
      ih (fun d hd => h d (List.mem_cons_of_mem _ hd)), List.flatMap_cons]

theorem lowerSeg_ascii (l : List Char) (h : ∀ c ∈ l, c.toNat < 128) (b a : List Char) :
    lowerSeg U b l a = l.map Char.toLower := by
  rw [lowerSeg_sigmaFree U l (fun c hc => by have := h c hc; omega)]
  induction l with
  | nil => rfl
  | cons c cs ih =>
    rw [List.flatMap_cons, lowerOf_ascii U c (h c (List.mem_cons_self _ _)),
      ih (fun d hd => h d (List.mem_cons_of_mem _ hd))]
    rfl

theorem toLowerCase_ascii (s : String) (h : IsAscii s) :
    toLowerCase U s = ⟨s.data.map Char.toLower⟩ :=
  String.ext (lowerSeg_ascii U s.data h [] [])

theorem toLowerCase_sigmaFree (s : String) (h : SigmaFree s) :
    (toLowerCase U s).data = s.data.flatMap (lowerOf U) :=
  lowerSeg_sigmaFree U s.data h [] []

theorem lowerSeg_append (l₁ l₂ b a : List Char) :
    lowerSeg U b (l₁ ++ l₂) a
      = lowerSeg U b l₁ (l₂ ++ a) ++ lowerSeg U (l₁.reverse ++ b) l₂ a := by
  induction l₁ generalizing b with
  | nil => rfl
  | cons c cs ih =>
    rw [List.cons_append, lowerSeg, lowerSeg, ih, List.append_assoc, List.append_assoc,
      List.reverse_cons, List.append_assoc]
    rfl

theorem quoteChar_of_ge (c : Char) (h : 93 ≤ c.toNat) : quoteChar c = [c] := by
  simp only [quoteChar]
  repeat rw [if_neg (by omega)]

theorem quoteChar_of_not_needsEscape (c : Char) (h : needsEscape c = false) : quoteChar c = [c] := by
  simp only [needsEscape, Bool.or_eq_false_iff, decide_eq_false_iff_not] at h
  obtain ⟨⟨h1, h2⟩, h3⟩ := h
  simp only [quoteChar]
  repeat rw [if_neg (by omega)]

theorem flatMap_quoteChar_of_plain (l : List Char) (h : ∀ c ∈ l, needsEscape c = false) :
    l.flatMap quoteChar = l := by
  induction l with
  | nil => rfl
  | cons c cs ih =>
    rw [List.flatMap_cons, quoteChar_of_not_needsEscape c (h c (List.mem_cons_self _ _)),
      ih (fun d hd => h d (List.mem_cons_of_mem _ hd))]
    rfl

theorem needsEscape_of_ge (c : Char) (h : 93 ≤ c.toNat) : needsEscape c = false := by
  simp only [needsEscape, Bool.or_eq_false_iff, decide_eq_false_iff_not]
  omega

/-- What `JSON.stringify` writes for an ASCII character, lower-cased, is what it writes
for the lower-cased character. -/
theorem quoteChar_lower_ascii :
    ∀ k < 128, (quoteChar (Char.ofNat k)).map Char.toLower = quoteChar (Char.ofNat k).toLower := by
  decide

theorem quoteChar_ascii :
    ∀ k < 128, ∀ d ∈ quoteChar (Char.ofNat k), d.toNat < 128 := by
  decide

theorem quoteChar_ne_sigma (c : Char) (h : c.toNat ≠ 931) : ∀ d ∈ quoteChar c, d.toNat ≠ 931 := by
  intro d hd
  rcases Nat.lt_or_ge c.toNat 128 with hc | hc
  · have := quoteChar_ascii c.toNat hc d (by rwa [Char.ofNat_toNat])
    omega
  · rw [quoteChar_of_ge c (by omega), List.mem_singleton] at hd
    rw [hd]
    exact h

theorem flatMap_quoteChar_ne_sigma (l : List Char) (h : ∀ c ∈ l, c.toNat ≠ 931) :
    ∀ d ∈ l.flatMap quoteChar, d.toNat ≠ 931 := by
  intro d hd
  obtain ⟨c, hc, hdc⟩ := List.mem_flatMap.1 hd
  exact quoteChar_ne_sigma c (h c hc) d hdc

/-- Lower-casing out of context commutes with JSON quoting, character by character. -/
theorem flatMap_lowerOf_quoteChar (hU : U.Plain) (c : Char) :
    (quoteChar c).flatMap (lowerOf U) = (lowerOf U c).flatMap quoteChar := by
  rcases Nat.lt_or_ge c.toNat 128 with hc | hc
  · have h1 := quoteChar_lower_ascii c.toNat hc
    have h2 := quoteChar_ascii c.toNat hc
    rw [Char.ofNat_toNat] at h1 h2
    rw [lowerOf_ascii U c hc, List.flatMap_singleton, ← h1]
    generalize quoteChar c = q at h2
    induction q with
    | nil => rfl
    | cons d ds ih =>
      rw [List.flatMap_cons, lowerOf_ascii U d (h2 d (List.mem_cons_self _ _)),
        ih (fun e he => h2 e (List.mem_cons_of_mem _ he))]
      rfl
  · rw [quoteChar_of_ge c (by omega), List.flatMap_singleton]
    have h1 : lowerOf U c = U.lower c := if_neg (by omega)
    rw [h1, flatMap_quoteChar_of_plain _ (hU c hc)]

theorem flatMap_lowerOf_flatMap_quoteChar (hU : U.Plain) (l : List Char) :
    (l.flatMap quoteChar).flatMap (lowerOf U) = (l.flatMap (lowerOf U)).flatMap quoteChar := by
  induction l with
  | nil => rfl
  | cons c cs ih =>
    rw [List.flatMap_cons, List.flatMap_append, ih, flatMap_lowerOf_quoteChar U hU,
      List.flatMap_cons, List.flatMap_append]

theorem intercalate_cons (sep x : List Char) (rest : List (List Char)) :
    sep.intercalate (x :: rest) = x ++ (if rest = [] then [] else sep ++ sep.intercalate rest) := by
  cases rest with
  | nil => simp [List.intercalate, List.intersperse]
  | cons y ys => simp [List.intercalate, List.intersperse]

theorem mem_intercalate (sep : List Char) (ls : List (List Char)) (c : Char)
    (h : c ∈ sep.intercalate ls) : c ∈ sep ∨ ∃ r ∈ ls, c ∈ r := by
  induction ls with
  | nil => simp [List.intercalate] at h
  | cons x rest ih =>
    rw [intercalate_cons] at h
    rcases List.mem_append.1 h with hx | hy
    · exact Or.inr ⟨x, List.mem_cons_self _ _, hx⟩
    · by_cases hr : rest = []
      · rw [if_pos hr] at hy
        cases hy
      · rw [if_neg hr] at hy
        rcases List.mem_append.1 hy with hs | hi
        · exact Or.inl hs
        · rcases ih hi with h1 | ⟨r, hr1, hr2⟩
          · exact Or.inl h1
          · exact Or.inr ⟨r, List.mem_cons_of_mem _ hr1, hr2⟩

theorem flatMap_intercalate (f : Char → List Char) (sep : List Char) (ls : List (List Char)) :
    (sep.intercalate ls).flatMap f = (sep.flatMap f).intercalate (ls.map fun l => l.flatMap f) := by
  induction ls with
  | nil => rfl
  | cons x rest ih =>
    rw [intercalate_cons, List.map_cons, intercalate_cons, List.flatMap_append]
    by_cases hr : rest = []
    · subst hr
      rfl
    · rw [if_neg hr, if_neg (by simpa using hr), List.flatMap_append, ih]

theorem quoteJSONString_ne_sigma (s : String) (h : SigmaFree s) :
    ∀ d ∈ quoteJSONString s, d.toNat ≠ 931 := by
  intro d hd
  rw [quoteJSONString, List.mem_cons, List.mem_append, List.mem_singleton] at hd
  rcases hd with rfl | hd | rfl
  · decide
  · exact flatMap_quoteChar_ne_sigma s.data h d hd
  · decide

theorem stringify_ne_sigma (c : Content) (h : c.HasNoSigma) :
    ∀ d ∈ (JSON.stringify c).data, d.toNat ≠ 931 := by
  intro d hd
  rw [JSON.stringify] at hd
  rw [List.mem_cons, List.mem_append, List.mem_singleton] at hd
  rcases hd with rfl | hd | rfl
  · decide
  · rcases mem_intercalate _ _ d hd with hs | ⟨r, hr, hdr⟩
    · rw [List.mem_singleton] at hs
      rw [hs]
      decide
    · obtain ⟨p, hp, rfl⟩ := List.mem_map.1 hr
      rw [serializeProperty, List.mem_append, List.mem_cons] at hdr
      rcases hdr with h1 | rfl | h2
      · exact quoteJSONString_ne_sigma p.1 (h p hp).1 d h1
      · decide
      · exact quoteJSONString_ne_sigma p.2 (h p hp).2 d h2
  · decide

theorem lowerOf_quoteJSONString (hU : U.Plain) (s : String) (h : SigmaFree s) :
    (quoteJSONString s).flatMap (lowerOf U) = quoteJSONString (toLowerCase U s) := by
  rw [quoteJSONString, quoteJSONString, toLowerCase_sigmaFree U s h, List.flatMap_cons,
    List.flatMap_append, flatMap_lowerOf_flatMap_quoteChar U hU]
  rfl

theorem lowerOf_serializeProperty (hU : U.Plain) (p : String × String)
    (h : SigmaFree p.1 ∧ SigmaFree p.2) :
    (serializeProperty p).flatMap (lowerOf U)
      = serializeProperty (toLowerCase U p.1, toLowerCase U p.2) := by
  rw [serializeProperty, serializeProperty, List.flatMap_append, List.flatMap_cons,
    lowerOf_quoteJSONString U hU p.1 h.1, lowerOf_quoteJSONString U hU p.2 h.2]
  rfl

/-- For a content without capital sigma, the lower-cased JSON text is the JSON text of the
content with its keys and values lower-cased. -/
theorem toLowerCase_stringify (hU : U.Plain) (c : Content) (h : c.HasNoSigma) :
    toLowerCase U (JSON.stringify c) = JSON.stringify (c.foldCase U) := by
  apply String.ext
  rw [toLowerCase_data, lowerSeg_sigmaFree U _ (stringify_ne_sigma c h)]
  simp only [JSON.stringify, Content.foldCase, List.flatMap_cons, List.flatMap_append,
    flatMap_intercalate, List.map_map]
  have hm : c.props.map ((fun l => l.flatMap (lowerOf U)) ∘ serializeProperty)
      = c.props.map (serializeProperty ∘ fun p => (toLowerCase U p.1, toLowerCase U p.2)) := by
    apply List.map_congr_left
    intro p hp
    exact lowerOf_serializeProperty U hU p (h p hp)
  rw [hm]
  rfl

theorem keep_eq_includes (needle : String) (e : Entry) :
    keep U needle e = includes (toLowerCase U (JSON.stringify e.content)) needle := by
  rw [keep]
  split
  · next h =>
    rw [h]
    symm
    rw [includes_iff]
    exact List.nil_infix
  · rfl

theorem view_ascii (log : List Entry) (needle : String)
    (hlog : ∀ e ∈ log, IsAscii (JSON.stringify e.content)) (hn : IsAscii needle) :
    view U log needle = view excerpt log needle := by
  rw [view, view, toLowerCase_ascii U needle hn, toLowerCase_ascii excerpt needle hn]
  apply List.filter_congr
  intro e he
  rw [List.mem_reverse] at he
  rw [keep, keep, toLowerCase_ascii U _ (hlog e he), toLowerCase_ascii excerpt _ (hlog e he)]

theorem excerpt_plain : excerpt.Plain := by
  intro c hc d hd
  simp only [excerpt] at hd
  split at hd
  · rw [List.mem_singleton] at hd; rw [hd]; decide
  · split at hd
    · rw [List.mem_singleton] at hd; rw [hd]; decide
    · split at hd
      · rw [List.mem_singleton] at hd; rw [hd]; decide
      · split at hd
        · rw [List.mem_cons, List.mem_singleton] at hd
          rcases hd with rfl | rfl <;> decide
        · rw [List.mem_singleton] at hd
          rw [hd]
          exact needsEscape_of_ge c (by omega)

/-- C2 as stated fails: the contents `{Text: "\nΣ"}` and `{Text: "\nσ"}` differ only in
the letter case of the sigma, yet for the needle `σ` only the second is retained: in the
JSON text the capital sigma follows the letter `n` of the escaped newline and is lower-cased
to the final sigma `ς`. -/
theorem sigma_case_changes_retention :
    (textEntry "\nΣ").content.foldCase excerpt = (textEntry "\nσ").content.foldCase excerpt ∧
    toLowerCase excerpt (JSON.stringify (textEntry "\nΣ").content) = "\x7b\"text\":\"\\nς\"\x7d" ∧
    view excerpt [textEntry "\nΣ", textEntry "\nσ"] "σ" = [textEntry "\nσ"] := by
  decide

/-- C2 (amended): filtering does not depend on the letter case of the needle, nor on the
letter case of a content without capital sigma.  Two filter values with the same
lower-casing give the same filtered view and the same rows; two contents without capital
sigma that differ only in the letter case of their keys and values are retained for the
same needles; and the view of `[Text "Hello World"]` for the needle `hello` is
`[Text "Hello World"]`. -/
theorem filter_case_insensitive (U : CaseTables) (s : State) (n₁ n₂ : String) (c₁ c₂ : Content)
    (hU : U.Plain) (hn : toLowerCase U n₁ = toLowerCase U n₂)
    (hc : c₁.foldCase U = c₂.foldCase U) (h₁ : c₁.HasNoSigma) (h₂ : c₂.HasNoSigma) :
    view U s.log n₁ = view U s.log n₂ ∧
    (render U { s with filterValue := n₁ }).list = (render U { s with filterValue := n₂ }).list ∧
    (∀ needle : String, keep U (toLowerCase U needle) (Entry.mk c₁)
      = keep U (toLowerCase U needle) (Entry.mk c₂)) ∧
    view U [textEntry "Hello World"] "hello" = [textEntry "Hello World"] := by
  have hv : view U s.log n₁ = view U s.log n₂ := by rw [view, view, hn]
  refine ⟨hv, ?_, ?_, ?_⟩
  · rw [render_list, render_list]
    exact congrArg (List.map createLi) hv
  · intro needle
    rw [keep_eq_includes, keep_eq_includes, toLowerCase_stringify U hU c₁ h₁,
      toLowerCase_stringify U hU c₂ h₂, hc]
  · rw [view_ascii U _ _ (by decide) (by decide)]
    decide

theorem filter_case_insensitive_witness :
    view excerpt [textEntry "Hello World", imageEntry "QUJD"] "HeLLo"
      = view excerpt [textEntry "Hello World", imageEntry "QUJD"] "hEllO" ∧
    keep excerpt (toLowerCase excerpt "World É") (textEntry "HELLO WORLD É")
      = keep excerpt (toLowerCase excerpt "World É") (textEntry "hello wOrld é") :=
  have h := filter_case_insensitive excerpt
    { bootstrap "" [] with arrays := [[textEntry "Hello World", imageEntry "QUJD"]] }
    "HeLLo" "hEllO" (textEntry "HELLO WORLD É").content (textEntry "hello wOrld é").content
    excerpt_plain (by decide) (by decide) (by decide) (by decide)
  ⟨h.1, h.2.2.1 "World É"⟩

/-! ## The final-sigma rule and JSON quoting -/

theorem needsEscape_lt (c : Char) (h : needsEscape c = true) : c.toNat < 128 := by
  simp only [needsEscape, Bool.or_eq_true, decide_eq_true_eq] at h
  omega

theorem kindOf_of_needsEscape (c : Char) (h : needsEscape c = true) :
    kindOf U c = CaseKind.neither := by
  simp only [needsEscape, Bool.or_eq_true, decide_eq_true_eq] at h
  rw [kindOf, if_pos (by omega), if_neg (by omega), if_neg (by omega)]

theorem seesCased_cons_of_needsEscape (c : Char) (l : List Char) (h : needsEscape c = true) :
    seesCased U (c :: l) = false := by
  rw [seesCased, kindOf_of_needsEscape U c h]

theorem seesCased_cons_congr (c : Char) (b b' : List Char)
    (h : seesCased U b = seesCased U b') : seesCased U (c :: b) = seesCased U (c :: b') := by
  rw [seesCased, seesCased]
  cases kindOf U c
  · rfl
  · exact h
  · rfl

theorem quoteChar_escaped_ascii :
    ∀ k < 128, needsEscape (Char.ofNat k) = true →
      ∃ r, quoteChar (Char.ofNat k) = Char.ofNat 92 :: r := by
  intro k hk h
  have h' : (quoteChar (Char.ofNat k)).head? = some (Char.ofNat 92) := by
    revert h
    revert k
    decide
  cases hq : quoteChar (Char.ofNat k) with
  | nil => rw [hq] at h'; cases h'
  | cons d r =>
    rw [hq] at h'
    injection h' with h'
    exact ⟨r, by rw [h']⟩

theorem quoteChar_escaped (c : Char) (h : needsEscape c = true) :
    ∃ r, quoteChar c = Char.ofNat 92 :: r := by
  have := quoteChar_escaped_ascii c.toNat (needsEscape_lt c h)
  rw [Char.ofNat_toNat] at this
  exact this h

theorem seesCased_backslash (l : List Char) : seesCased U (Char.ofNat 92 :: l) = false :=
  seesCased_cons_of_needsEscape U _ l (by decide)

/-- Escaping does not change whether a cased letter is seen ahead. -/
theorem seesCased_quote (cs a a' : List Char) (h : seesCased U a = seesCased U a') :
    seesCased U (cs.flatMap quoteChar ++ a) = seesCased U (cs ++ a') := by
  induction cs with
  | nil => exact h
  | cons c cs ih =>
    cases hc : needsEscape c with
    | true =>
      obtain ⟨r, hr⟩ := quoteChar_escaped c hc
      rw [List.flatMap_cons, hr, List.cons_append, List.cons_append, List.cons_append,
        seesCased_backslash, seesCased_cons_of_needsEscape U c _ hc]
    | false =>
      rw [List.flatMap_cons, quoteChar_of_not_needsEscape c hc, List.cons_append,
        List.cons_append, List.cons_append, List.nil_append]
      exact seesCased_cons_congr U c _ _ ih

theorem lowerAt_congr (b b' a a' : List Char) (c : Char)
    (hb : seesCased U b = seesCased U b') (ha : seesCased U a = seesCased U a') :
    lowerAt U b c a = lowerAt U b' c a' := by
  rw [lowerAt, lowerAt, hb, ha]

theorem lowerAt_of_needsEscape (b a : List Char) (c : Char) (h : needsEscape c = true) :
    lowerAt U b c a = [c] := by
  have hlt := needsEscape_lt c h
  rw [lowerAt_of_ne_sigma U b a c (by omega), lowerOf_ascii U c hlt]
  simp only [needsEscape, Bool.or_eq_true, decide_eq_true_eq] at h
  have : c.toLower = c := by
    simp only [Char.toLower]
    rw [if_neg]
    omega
  rw [this]

theorem seesCased_reverse_quoteChar (c : Char) (b : List Char)
    (h : needsEscape c = true) (hc : 32 ≤ c.toNat) :
    seesCased U ((quoteChar c).reverse ++ b) = false := by
  simp only [needsEscape, Bool.or_eq_true, decide_eq_true_eq] at h
  have h2 : c.toNat = 34 ∨ c.toNat = 92 := by omega
  rcases h2 with h2 | h2
  · have hc' : c = Char.ofNat 34 := by rw [← h2, Char.ofNat_toNat]
    subst hc'
    exact seesCased_cons_of_needsEscape U _ _ (by decide)
  · have hc' : c = Char.ofNat 92 := by rw [← h2, Char.ofNat_toNat]
    subst hc'
    exact seesCased_cons_of_needsEscape U _ _ (by decide)

/-- A stretch without escaped characters that occurs in the lower-cased text occurs in
the lower-cased escaped text, when the text has no capital sigma, or has no control
character and stands in matching surroundings. -/
theorem infix_lowerSeg_quote (ln : List Char) (hln : ∀ d ∈ ln, needsEscape d = false)
    (t : List Char) :
    ∀ b b' a a' pre : List Char,
      ((∀ c ∈ t, c.toNat ≠ 931) ∨
        ((∀ c ∈ t, 32 ≤ c.toNat) ∧ seesCased U b = seesCased U b' ∧
          seesCased U a = seesCased U a')) →
      ln <:+: pre ++ lowerSeg U b' t a' →
      ln <:+: pre ++ lowerSeg U b (t.flatMap quoteChar) a := by
  induction t with
  | nil => intro b b' a a' pre _ h; exact h
  | cons c cs ih =>
    intro b b' a a' pre hyp h
    cases hc : needsEscape c with
    | true =>
      have hnot : c ∉ ln := by
        intro hm
        rw [hln c hm] at hc
        cases hc
      rw [lowerSeg, lowerAt_of_needsEscape U _ _ c hc, List.singleton_append] at h
      rw [List.flatMap_cons, lowerSeg_append]
      rcases infix_split c ln pre _ hnot h with h1 | h1
      · exact h1.trans (List.infix_append' [] pre _)
      · have hyp' : (∀ d ∈ cs, d.toNat ≠ 931) ∨
            ((∀ d ∈ cs, 32 ≤ d.toNat) ∧
              seesCased U ((quoteChar c).reverse ++ b) = seesCased U (c :: b') ∧
              seesCased U a = seesCased U a') := by
          rcases hyp with hs | ⟨hcf, _, ha⟩
          · exact Or.inl fun d hd => hs d (List.mem_cons_of_mem _ hd)
          · refine Or.inr ⟨fun d hd => hcf d (List.mem_cons_of_mem _ hd), ?_, ha⟩
            rw [seesCased_reverse_quoteChar U c b hc (hcf c (List.mem_cons_self _ _)),
              seesCased_cons_of_needsEscape U c b' hc]
        have h2 := ih ((quoteChar c).reverse ++ b) (c :: b') a a' [] hyp' (by simpa using h1)
        rw [List.nil_append] at h2
        exact h2.trans ⟨pre ++ lowerSeg U b (quoteChar c) (cs.flatMap quoteChar ++ a), [], by simp⟩
    | false =>
      rw [List.flatMap_cons, quoteChar_of_not_needsEscape c hc, List.singleton_append, lowerSeg]
      rw [lowerSeg] at h
      have hat : lowerAt U b c (cs.flatMap quoteChar ++ a) = lowerAt U b' c (cs ++ a') := by
        rcases hyp with hs | ⟨_, hb, ha⟩
        · rw [lowerAt_of_ne_sigma U _ _ c (hs c (List.mem_cons_self _ _)),
            lowerAt_of_ne_sigma U _ _ c (hs c (List.mem_cons_self _ _))]
        · exact lowerAt_congr U _ _ _ _ c hb (seesCased_quote U cs a a' ha)
      have hyp' : (∀ d ∈ cs, d.toNat ≠ 931) ∨
          ((∀ d ∈ cs, 32 ≤ d.toNat) ∧ seesCased U (c :: b) = seesCased U (c :: b') ∧
            seesCased U a = seesCased U a') := by
        rcases hyp with hs | ⟨hcf, hb, ha⟩
        · exact Or.inl fun d hd => hs d (List.mem_cons_of_mem _ hd)
        · exact Or.inr ⟨fun d hd => hcf d (List.mem_cons_of_mem _ hd),
            seesCased_cons_congr U c b b' hb, ha⟩
      rw [hat, ← List.append_assoc]
      rw [← List.append_assoc] at h
      exact ih (c :: b) (c :: b') a a' _ hyp' h

theorem stringify_textEntry (t : String) :
    (JSON.stringify (textEntry t).content).data
      = ['{', Char.ofNat 34, 'T', 'e', 'x', 't', Char.ofNat 34, ':', Char.ofNat 34]
        ++ (t.data.flatMap quoteChar ++ [Char.ofNat 34, '}']) := by
  have hk : ['T', 'e', 'x', 't'].flatMap quoteChar = ['T', 'e', 'x', 't'] := by decide
  simp only [JSON.stringify, textEntry, List.map_cons, List.map_nil, serializeProperty,
    quoteJSONString, hk]
  simp [List.intercalate, List.intersperse]

/-- The search finds, in a Text entry, every stretch of its lower-cased text that has no
escaped character, when the text has no capital sigma or no control character. -/
theorem keep_textEntry (t needle : String) (hplain : EscapeFree needle)
    (ht : SigmaFree t ∨ ControlFree t)
    (hinc : includes (toLowerCase U t) needle = true) :
    keep U needle (textEntry t) = true := by
  rw [keep_eq_includes, includes_iff, toLowerCase_data, stringify_textEntry, lowerSeg_append,
    lowerSeg_append]
  rw [includes_iff, toLowerCase_data] at hinc
  have hyp : (∀ c ∈ t.data, c.toNat ≠ 931) ∨
      ((∀ c ∈ t.data, 32 ≤ c.toNat) ∧
        seesCased U (['{', Char.ofNat 34, 'T', 'e', 'x', 't', Char.ofNat 34, ':',
          Char.ofNat 34].reverse ++ []) = seesCased U [] ∧
        seesCased U ([Char.ofNat 34, '}'] ++ []) = seesCased U []) := by
    rcases ht with h | h
    · exact Or.inl h
    · exact Or.inr ⟨h, rfl, rfl⟩
  have h1 := infix_lowerSeg_quote U needle.data hplain t.data _ [] _ []
    (lowerSeg U [] ['{', Char.ofNat 34, 'T', 'e', 'x', 't', Char.ofNat 34, ':', Char.ofNat 34]
      (t.data.flatMap quoteChar ++ [Char.ofNat 34, '}'] ++ []))
    hyp (hinc.trans (List.suffix_append _ _).isInfix)
  rw [← List.append_assoc]
  exact h1.trans (List.prefix_append _ _).isInfix

theorem render_onclicks (s : State) :
    (render U s).list.map Li.onclick = view U s.log s.filterValue := by
  rw [render_list, List.map_map]
  exact List.map_id _

/-- C3 as stated fails.  The text `a"b` contains the needle `a"b` literally, yet the entry
is filtered out, because the search runs over the JSON text, where the quote is written
with a backslash before it.  And the text made of a newline and a capital sigma contains
the needle `Σ` up to letter case, yet the entry is filtered out, because in the JSON text
the sigma follows the letter `n` of the escaped newline and is lower-cased to `ς`, not
to `σ`. -/
theorem quoted_text_not_retained :
    includes (toLowerCase excerpt "a\"b") (toLowerCase excerpt "a\"b") = true ∧
    view excerpt [textEntry "a\"b"] "a\"b" = [] ∧
    (run excerpt (bootstrap "" []) [Event.history [textEntry "a\"b"], Event.input "a\"b"]).list
      = [] ∧
    includes (toLowerCase excerpt "\nΣ") (toLowerCase excerpt "Σ") = true ∧
    EscapeFree (toLowerCase excerpt "Σ") ∧
    view excerpt [textEntry "\nΣ"] "Σ" = [] := by
  decide

/-- C3 (amended): a Text entry of the log is retained, and shown, whenever its text contains
the needle as a case-insensitive substring, the lower-cased needle has no double quote,
backslash or control character below U+0020, and the text does not hold both a capital
sigma and a control character. -/
theorem text_match_retained (U : CaseTables) (s : State) (t : String)
    (hmem : textEntry t ∈ s.log)
    (hplain : EscapeFree (toLowerCase U s.filterValue))
    (ht : SigmaFree t ∨ ControlFree t)
    (hinc : includes (toLowerCase U t) (toLowerCase U s.filterValue) = true) :
    textEntry t ∈ view U s.log s.filterValue ∧ createLi (textEntry t) ∈ (render U s).list := by
  have hk : keep U (toLowerCase U s.filterValue) (textEntry t) = true :=
    keep_textEntry U t _ hplain ht hinc
  have hv : textEntry t ∈ view U s.log s.filterValue := by
    rw [view, List.mem_filter, List.mem_reverse]
    exact ⟨hmem, hk⟩
  refine ⟨hv, ?_⟩
  rw [render_list]
  exact List.mem_map_of_mem _ hv

theorem text_match_retained_witness :
    textEntry "Line one\n\"Hello\" World" ∈
      view excerpt [imageEntry "QUJD", textEntry "Line one\n\"Hello\" World"] "hELLO" ∧
    textEntry "\"É\" aΣ b" ∈ view excerpt [textEntry "\"É\" aΣ b"] "AΣ" :=
  ⟨(text_match_retained excerpt
      { bootstrap "hELLO" [] with
        arrays := [[imageEntry "QUJD", textEntry "Line one\n\"Hello\" World"]] }
      "Line one\n\"Hello\" World" (by decide) (by decide) (by decide) (by decide)).1,
   (text_match_retained excerpt
      { bootstrap "AΣ" [] with arrays := [[textEntry "\"É\" aΣ b"]] }
      "\"É\" aΣ b" (by decide) (by decide) (by decide) (by decide)).1⟩

theorem stringify_imageEntry (p : String) (h : ∀ c ∈ p.data, isBase64Char c = true) :
    JSON.stringify (imageEntry p).content = "\x7b\"ImageBase64\":\"" ++ p ++ "\"\x7d" := by
  apply String.ext
  simp only [JSON.stringify, imageEntry, List.map_cons, List.map_nil, serializeProperty,
    quoteJSONString, String.data_append]
  rw [flatMap_quoteChar_of_plain p.data]
  · have hk : ['I', 'm', 'a', 'g', 'e', 'B', 'a', 's', 'e', '6', '4'].flatMap quoteChar
        = ['I', 'm', 'a', 'g', 'e', 'B', 'a', 's', 'e', '6', '4'] := by decide
    rw [hk]
    simp [List.intercalate, List.intersperse]
  · intro c hc
    have := h c hc
    simp only [isBase64Char, Bool.or_eq_true, Bool.and_eq_true, decide_eq_true_eq] at this
    simp only [needsEscape, Bool.or_eq_false_iff, decide_eq_false_iff_not]
    omega

theorem isAscii_of_base64 (p : String) (h : ∀ c ∈ p.data, isBase64Char c = true) : IsAscii p := by
  intro c hc
  have := h c hc
  simp only [isBase64Char, Bool.or_eq_true, Bool.and_eq_true, decide_eq_true_eq] at this
  omega

theorem isAscii_append (a b : String) (ha : IsAscii a) (hb : IsAscii b) : IsAscii (a ++ b) := by
  intro c hc
  rw [String.data_append, List.mem_append] at hc
  rcases hc with h | h
  · exact ha c h
  · exact hb c h

/-- C4: an image entry whose payload uses only base64 characters is among the entries
shown by a render exactly when it is in the log and the lower-cased needle occurs in the
lower-cased JSON text `{"ImageBase64":"<payload>"}`, hence whenever the lower-cased needle
occurs in the lower-cased payload.  For the payload `QUJD` the needle `quj` retains the
entry and the needle `qubc` does not. -/
theorem image_payload_searched (U : CaseTables) (s : State) (p : String)
    (hp : ∀ c ∈ p.data, isBase64Char c = true) :
    (imageEntry p ∈ (render U s).list.map Li.onclick ↔
      imageEntry p ∈ s.log ∧
      includes (toLowerCase U ("\x7b\"ImageBase64\":\"" ++ p ++ "\"\x7d"))
        (toLowerCase U s.filterValue) = true) ∧
    (imageEntry p ∈ s.log → includes (toLowerCase U p) (toLowerCase U s.filterValue) = true →
      createLi (imageEntry p) ∈ (render U s).list) ∧
    view U [imageEntry "QUJD"] "quj" = [imageEntry "QUJD"] ∧
    view U [imageEntry "QUJD"] "qubc" = [] := by
  have hk : keep U (toLowerCase U s.filterValue) (imageEntry p)
      = includes (toLowerCase U ("\x7b\"ImageBase64\":\"" ++ p ++ "\"\x7d"))
          (toLowerCase U s.filterValue) := by
    rw [keep_eq_includes, stringify_imageEntry p hp]
  have h1 : imageEntry p ∈ view U s.log s.filterValue ↔
      imageEntry p ∈ s.log ∧
      includes (toLowerCase U ("\x7b\"ImageBase64\":\"" ++ p ++ "\"\x7d"))
        (toLowerCase U s.filterValue) = true := by
    rw [view, List.mem_filter, List.mem_reverse, hk]
  refine ⟨by rw [render_onclicks]; exact h1, ?_, ?_, ?_⟩
  · intro hmem hinc
    rw [render_list]
    refine List.mem_map_of_mem _ (h1.2 ⟨hmem, ?_⟩)
    have hpa := isAscii_of_base64 p hp
    have hja : IsAscii ("\x7b\"ImageBase64\":\"" ++ p ++ "\"\x7d") :=
      isAscii_append _ _ (isAscii_append _ _ (by decide) hpa) (by decide)
    rw [toLowerCase_ascii U p hpa] at hinc
    rw [toLowerCase_ascii U _ hja]
    rw [includes_iff] at hinc ⊢
    refine hinc.trans ?_
    simp only [String.data_append, List.map_append]
    exact List.infix_append _ _ _
  · rw [view_ascii U _ _ (by decide) (by decide)]
    decide
  · rw [view_ascii U _ _ (by decide) (by decide)]
    decide

theorem image_payload_searched_witness :
    createLi (imageEntry "aGk=") ∈
      (render excerpt { bootstrap "\u212A" [] with arrays := [[textEntry "x", imageEntry "aGk="]] }).list :=
  (image_payload_searched excerpt
    { bootstrap "\u212A" [] with arrays := [[textEntry "x", imageEntry "aGk="]] } "aGk="
    (by decide)).2.1 (by decide) (by decide)

/-! ## Whitespace normalisation -/

theorem intercalate_eq_nil (sep : List Char) (ls : List (List Char)) (h : ∀ r ∈ ls, r ≠ []) :
    sep.intercalate ls = [] ↔ ls = [] := by
  cases ls with
  | nil => simp [List.intercalate]
  | cons x rest =>
    rw [intercalate_cons]
    have hx : x ≠ [] := h x (List.mem_cons_self _ _)
    simp [hx]

theorem runs_ne_nil (l : List Char) : ∀ r ∈ runs l, r ≠ [] := by
  intro r hr
  rw [runs, List.mem_filter] at hr
  intro h
  rw [h] at hr
  simp at hr

theorem runs_cons_of_ws (c : Char) (cs : List Char) (h : isWhiteSpace c = true) :
    runs (c :: cs) = runs cs := by
  simp [runs, List.splitOnP_cons, h]

theorem rdropWhile_cons_of_neg (p : Char → Bool) (c : Char) (l : List Char) (h : p c = false) :
    List.rdropWhile p (c :: l) = c :: List.rdropWhile p l := by
  induction l using List.reverseRecOn with
  | nil => simp [List.rdropWhile, h]
  | append_singleton xs x ih =>
    rw [← List.cons_append, List.rdropWhile_concat, List.rdropWhile_concat]
    split
    · exact ih
    · rfl

theorem rdropWhile_cons_of_pos (p : Char → Bool) (c : Char) (l : List Char) (h : p c = true) :
    List.rdropWhile p (c :: l)
      = if List.rdropWhile p l = [] then [] else c :: List.rdropWhile p l := by
  induction l using List.reverseRecOn with
  | nil => simp [List.rdropWhile, h]
  | append_singleton xs x ih =>
    rw [← List.cons_append, List.rdropWhile_concat, List.rdropWhile_concat]
    split
    · exact ih
    · simp

theorem replaceAux_true_cons_ws (c : Char) (cs : List Char) (h : isWhiteSpace c = true) :
    replaceWhiteSpaceAux true (c :: cs) = replaceWhiteSpaceAux true cs := by
  simp [replaceWhiteSpaceAux, h]

theorem replaceAux_false_cons_ws (c : Char) (cs : List Char) (h : isWhiteSpace c = true) :
    replaceWhiteSpaceAux false (c :: cs) = ' ' :: replaceWhiteSpaceAux true cs := by
  simp [replaceWhiteSpaceAux, h]

theorem replaceAux_cons_not_ws (b : Bool) (c : Char) (cs : List Char)
    (h : isWhiteSpace c = false) :
    replaceWhiteSpaceAux b (c :: cs) = c :: replaceWhiteSpaceAux false cs := by
  simp [replaceWhiteSpaceAux, h]

theorem isWhiteSpace_space : isWhiteSpace ' ' = true := by
  decide

/-- The scanner and the runs agree, once trailing whitespace is removed. -/
theorem rdropWhile_replaceAux (l : List Char) :
    List.rdropWhile isWhiteSpace (replaceWhiteSpaceAux true l) = [' '].intercalate (runs l) ∧
    ∀ h tl, l.splitOnP isWhiteSpace = h :: tl →
      List.rdropWhile isWhiteSpace (replaceWhiteSpaceAux false l)
        = h ++ (if tl.filter (fun r => !r.isEmpty) = [] then []
                else [' '] ++ [' '].intercalate (tl.filter fun r => !r.isEmpty)) := by
  induction l with
  | nil =>
    refine ⟨by simp [replaceWhiteSpaceAux, runs, List.intercalate], ?_⟩
    intro h tl hs
    rw [List.splitOnP_nil] at hs
    injection hs with h1 h2
    subst h1; subst h2
    simp [replaceWhiteSpaceAux]
  | cons c cs ih =>
    obtain ⟨ih1, ih2⟩ := ih
    cases hc : isWhiteSpace c with
    | true =>
      refine ⟨by rw [replaceAux_true_cons_ws c cs hc, runs_cons_of_ws c cs hc, ih1], ?_⟩
      intro h tl hs
      rw [List.splitOnP_cons, if_pos hc] at hs
      injection hs with h1 h2
      subst h1; subst h2
      rw [replaceAux_false_cons_ws c cs hc,
        rdropWhile_cons_of_pos _ _ _ isWhiteSpace_space, ih1]
      have hnil := intercalate_eq_nil [' '] (runs cs) (runs_ne_nil cs)
      show (if [' '].intercalate (runs cs) = [] then [] else ' ' :: [' '].intercalate (runs cs))
        = [] ++ (if runs cs = [] then [] else [' '] ++ [' '].intercalate (runs cs))
      by_cases hr : runs cs = []
      · rw [if_pos hr, if_pos (hnil.2 hr)]; rfl
      · rw [if_neg hr, if_neg (fun h => hr (hnil.1 h))]; rfl
    | false =>
      obtain ⟨h', tl', hs'⟩ : ∃ h' tl', cs.splitOnP isWhiteSpace = h' :: tl' := by
        cases hsp : cs.splitOnP isWhiteSpace with
        | nil => exact absurd hsp (List.splitOnP_ne_nil _ _)
        | cons a b => exact ⟨a, b, rfl⟩
      have hX := ih2 h' tl' hs'
      have hsplit : (c :: cs).splitOnP isWhiteSpace = (c :: h') :: tl' := by
        rw [List.splitOnP_cons, hs']
        simp [hc]
      constructor
      · rw [replaceAux_cons_not_ws true c cs hc, rdropWhile_cons_of_neg _ _ _ hc, hX]
        rw [runs, hsplit, List.filter_cons_of_pos (by simp), intercalate_cons]
        rfl
      · intro h tl hs
        rw [hsplit] at hs
        injection hs with h1 h2
        subst h1; subst h2
        rw [replaceAux_cons_not_ws false c cs hc, rdropWhile_cons_of_neg _ _ _ hc, hX]
        rfl

theorem dropWhile_replaceAux_true (l : List Char) :
    (replaceWhiteSpaceAux true l).dropWhile isWhiteSpace = replaceWhiteSpaceAux true l := by
  induction l with
  | nil => rfl
  | cons c cs ih =>
    cases hc : isWhiteSpace c with
    | true => rw [replaceAux_true_cons_ws c cs hc, ih]
    | false =>
      rw [replaceAux_cons_not_ws true c cs hc, List.dropWhile_cons_of_neg (by simp [hc])]

theorem dropWhile_replaceAux_false (l : List Char) :
    (replaceWhiteSpaceAux false l).dropWhile isWhiteSpace = replaceWhiteSpaceAux true l := by
  cases l with
  | nil => rfl
  | cons c cs =>
    cases hc : isWhiteSpace c with
    | true =>
      rw [replaceAux_false_cons_ws c cs hc, replaceAux_true_cons_ws c cs hc,
        List.dropWhile_cons_of_pos isWhiteSpace_space, dropWhile_replaceAux_true]
    | false =>
      rw [replaceAux_cons_not_ws false c cs hc, replaceAux_cons_not_ws true c cs hc,
        List.dropWhile_cons_of_neg (by simp [hc])]

theorem trim_replaceWhiteSpace (t : String) : trim (replaceWhiteSpace t) = joinRuns t := by
  apply String.ext
  show List.rdropWhile isWhiteSpace ((replaceWhiteSpaceAux false t.data).dropWhile isWhiteSpace)
    = [' '].intercalate (runs t.data)
  rw [dropWhile_replaceAux_false]
  exact (rdropWhile_replaceAux t.data).1

theorem splitOnP_not_ws (l : List Char) :
    ∀ r ∈ l.splitOnP isWhiteSpace, ∀ c ∈ r, isWhiteSpace c = false := by
  induction l with
  | nil =>
    intro r hr c hc
    rw [List.splitOnP_nil, List.mem_singleton] at hr
    rw [hr] at hc
    cases hc
  | cons a as ih =>
    intro r hr c hc
    rw [List.splitOnP_cons] at hr
    cases ha : isWhiteSpace a with
    | true =>
      rw [if_pos ha] at hr
      rcases List.mem_cons.1 hr with rfl | hr'
      · cases hc
      · exact ih r hr' c hc
    | false =>
      rw [if_neg (by simp [ha])] at hr
      cases hs : as.splitOnP isWhiteSpace with
      | nil => exact absurd hs (List.splitOnP_ne_nil _ _)
      | cons h tl =>
        rw [hs] at hr ih
        rw [List.modifyHead_cons] at hr
        rcases List.mem_cons.1 hr with rfl | hr'
        · rcases List.mem_cons.1 hc with rfl | hc'
          · exact ha
          · exact ih h (List.mem_cons_self _ _) c hc'
        · exact ih r (List.mem_cons_of_mem _ hr') c hc

theorem runs_not_ws (l : List Char) : ∀ r ∈ runs l, ∀ c ∈ r, isWhiteSpace c = false := by
  intro r hr
  exact splitOnP_not_ws l r (List.mem_filter.1 hr).1

theorem joinRuns_ws_is_space (t : String) :
    ∀ c ∈ (joinRuns t).data, isWhiteSpace c = true → c = ' ' := by
  intro c hc hws
  rcases mem_intercalate [' '] (runs t.data) c hc with h | ⟨r, hr, hcr⟩
  · exact List.mem_singleton.1 h
  · rw [runs_not_ws t.data r hr c hcr] at hws
    cases hws

theorem chain_of_not_ws (x : List Char) (h : ∀ c ∈ x, isWhiteSpace c = false) :
    List.Chain' (fun a b => isWhiteSpace a = false ∨ isWhiteSpace b = false) x := by
  induction x with
  | nil => exact List.chain'_nil
  | cons a as ih =>
    rw [List.chain'_cons']
    exact ⟨fun _ _ => Or.inl (h a (List.mem_cons_self _ _)),
      ih (fun c hc => h c (List.mem_cons_of_mem _ hc))⟩

theorem chain_intercalate (ls : List (List Char))
    (hne : ∀ r ∈ ls, r ≠ []) (hws : ∀ r ∈ ls, ∀ c ∈ r, isWhiteSpace c = false) :
    List.Chain' (fun a b => isWhiteSpace a = false ∨ isWhiteSpace b = false)
        ([' '].intercalate ls) ∧
    ∀ a ∈ ([' '].intercalate ls).head?, isWhiteSpace a = false := by
  induction ls with
  | nil => simp [List.intercalate]
  | cons x rest ih =>
    have ih' := ih (fun r hr => hne r (List.mem_cons_of_mem _ hr))
      (fun r hr => hws r (List.mem_cons_of_mem _ hr))
    have hx : x ≠ [] := hne x (List.mem_cons_self _ _)
    have hxw := hws x (List.mem_cons_self _ _)
    rw [intercalate_cons]
    constructor
    · rw [List.chain'_append]
      refine ⟨chain_of_not_ws x hxw, ?_, ?_⟩
      · by_cases hr : rest = []
        · rw [if_pos hr]; exact List.chain'_nil
        · rw [if_neg hr]
          show List.Chain' _ (' ' :: [' '].intercalate rest)
          rw [List.chain'_cons']
          exact ⟨fun y hy => Or.inr (ih'.2 y hy), ih'.1⟩
      · intro a ha b _
        exact Or.inl (hxw a (List.mem_of_mem_getLast? ha))
    · intro a ha
      rw [List.head?_append_of_ne_nil _ hx] at ha
      exact hxw a (List.mem_of_mem_head? ha)

theorem joinRuns_chain (t : String) :
    List.Chain' (fun a b => isWhiteSpace a = false ∨ isWhiteSpace b = false) (joinRuns t).data :=
  (chain_intercalate (runs t.data) (runs_ne_nil t.data) (runs_not_ws t.data)).1

theorem trim_joinRuns (t : String) : trim (joinRuns t) = joinRuns t := by
  apply String.ext
  show List.rdropWhile isWhiteSpace ((joinRuns t).data.dropWhile isWhiteSpace) = (joinRuns t).data
  have hd : (joinRuns t).data.dropWhile isWhiteSpace = (joinRuns t).data := by
    have hh := (chain_intercalate (runs t.data) (runs_ne_nil t.data) (runs_not_ws t.data)).2
    show ([' '].intercalate (runs t.data)).dropWhile isWhiteSpace = [' '].intercalate (runs t.data)
    generalize [' '].intercalate (runs t.data) = out at hh
    cases out with
    | nil => rfl
    | cons a as =>
      have ha : isWhiteSpace a = false := hh a rfl
      rw [List.dropWhile_cons_of_neg (by simp [ha])]
  rw [hd]
  have hr := (rdropWhile_replaceAux t.data).1
  show List.rdropWhile isWhiteSpace ([' '].intercalate (runs t.data)) = [' '].intercalate (runs t.data)
  rw [← hr]
  exact List.rdropWhile_idempotent _ _

theorem flatten_splitOnP (l : List Char) :
    (l.splitOnP isWhiteSpace).flatten = l.filter fun c => !isWhiteSpace c := by
  induction l with
  | nil => rfl
  | cons a as ih =>
    rw [List.splitOnP_cons]
    cases ha : isWhiteSpace a with
    | true =>
      rw [if_pos rfl, List.flatten_cons, List.nil_append, ih, List.filter_cons_of_neg (by simp [ha])]
    | false =>
      rw [if_neg (by simp)]
      cases hs : as.splitOnP isWhiteSpace with
      | nil => exact absurd hs (List.splitOnP_ne_nil _ _)
      | cons h tl =>
        rw [hs] at ih
        rw [List.modifyHead_cons, List.flatten_cons, List.cons_append, ← List.flatten_cons, ih,
          List.filter_cons_of_pos (by simp [ha])]

theorem flatten_filter_nonempty (ls : List (List Char)) :
    (ls.filter fun r => !r.isEmpty).flatten = ls.flatten := by
  induction ls with
  | nil => rfl
  | cons x rest ih =>
    cases x with
    | nil => rw [List.filter_cons_of_neg (by simp), ih]; rfl
    | cons a as => rw [List.filter_cons_of_pos (by simp), List.flatten_cons, ih]; rfl

theorem filter_intercalate (ls : List (List Char))
    (hws : ∀ r ∈ ls, ∀ c ∈ r, isWhiteSpace c = false) :
    ([' '].intercalate ls).filter (fun c => !isWhiteSpace c) = ls.flatten := by
  induction ls with
  | nil => rfl
  | cons x rest ih =>
    have ih' := ih (fun r hr => hws r (List.mem_cons_of_mem _ hr))
    have hx : x.filter (fun c => !isWhiteSpace c) = x := by
      rw [List.filter_eq_self]
      intro c hc
      simp [hws x (List.mem_cons_self _ _) c hc]
    rw [intercalate_cons, List.filter_append, hx, List.flatten_cons]
    by_cases hr : rest = []
    · rw [if_pos hr, hr]; rfl
    · rw [if_neg hr, List.filter_append, ih']
      rfl

theorem joinRuns_filter (t : String) :
    (joinRuns t).data.filter (fun c => !isWhiteSpace c)
      = t.data.filter fun c => !isWhiteSpace c := by
  show ([' '].intercalate (runs t.data)).filter (fun c => !isWhiteSpace c) = _
  rw [filter_intercalate _ (runs_not_ws t.data), runs, flatten_filter_nonempty, flatten_splitOnP]

/-! ## Rows -/

theorem createLi_of_text (e : Entry) (t : String) (ht : e.content.get "Text" = some t)
    (hne : t ≠ "") :
    createLi e = { preview := Preview.span "text" (joinRuns t), onclick := e } := by
  simp only [createLi, ht, truthy, Option.getD_some, trim_replaceWhiteSpace]
  rw [if_pos (by simpa using hne)]

theorem createLi_of_falsy (e : Entry) (h : truthy (e.content.get "Text") = false) :
    createLi e = { preview := Preview.img ("data:image/png;base64," ++ toStr (e.content.get "ImageBase64")),
                   onclick := e } := by
  simp only [createLi, h]
  rfl

theorem joinRuns_empty : joinRuns "" = "" := by
  decide

/-- C5: the text shown for a Text entry is its maximal non-whitespace runs joined by single
spaces.  That string is what `replace(/\s+/g, " ").trim()` computes; it has no leading or
trailing whitespace, its only whitespace characters are single spaces, no two of them
adjacent, and its other characters are those of the text in order.  The entry itself and
the arrays of the store are left as they were, and `"a\n\n  b\t c"` is shown as `"a b c"`. -/
theorem text_display_normalised (s : State) (e : Entry) (t : String)
    (ht : e.content.get "Text" = some t) :
    (createLi e).textContent = joinRuns t ∧
    (t ≠ "" → (createLi e).preview = Preview.span "text" (joinRuns t)) ∧
    trim (replaceWhiteSpace t) = joinRuns t ∧
    trim (joinRuns t) = joinRuns t ∧
    (∀ c ∈ (joinRuns t).data, isWhiteSpace c = true → c = ' ') ∧
    List.Chain' (fun a b => isWhiteSpace a = false ∨ isWhiteSpace b = false) (joinRuns t).data ∧
    (joinRuns t).data.filter (fun c => !isWhiteSpace c)
      = t.data.filter (fun c => !isWhiteSpace c) ∧
    (createLi e).onclick = e ∧
    (addLi s e).arrays = s.arrays ∧
    (createLi (textEntry "a\n\n  b\t c")).preview = Preview.span "text" "a b c" := by
  refine ⟨?_, ?_, trim_replaceWhiteSpace t, trim_joinRuns t, joinRuns_ws_is_space t,
    joinRuns_chain t, joinRuns_filter t, rfl, rfl, by decide⟩
  · by_cases hne : t = ""
    · have hf : truthy (e.content.get "Text") = false := by
        rw [ht, hne]; rfl
      rw [createLi_of_falsy e hf, hne, joinRuns_empty]
      rfl
    · rw [createLi_of_text e t ht hne, Li.textContent]
  · intro hne
    rw [createLi_of_text e t ht hne]

theorem text_display_normalised_witness :
    (createLi (textEntry "  two\twords \n")).textContent = joinRuns "  two\twords \n" ∧
    (createLi (textEntry "  two\twords \n")).preview
      = Preview.span "text" (joinRuns "  two\twords \n") ∧
    joinRuns "  two\twords \n" = "two words" :=
  have h := text_display_normalised (bootstrap "" []) (textEntry "  two\twords \n")
    "  two\twords \n" (by decide)
  ⟨h.1, h.2.1 (by decide), by decide⟩

/-- C9, at the failing input: a Text entry whose text is the empty string is not shown as
a text row but as an image row with the source `data:image/png;base64,undefined`.  Every
Text entry with a non-empty text is a text row showing the normalised text, and every
Image entry is an image row whose source is the prefix followed by its payload. -/
theorem empty_text_shown_as_image :
    createLi (textEntry "")
      = { preview := Preview.img "data:image/png;base64,undefined", onclick := textEntry "" } ∧
    (run U (bootstrap "" []) [Event.history [textEntry ""]]).list
      = [{ preview := Preview.img "data:image/png;base64,undefined", onclick := textEntry "" }] ∧
    (∀ (c : Char) (cs : List Char), createLi (textEntry ⟨c :: cs⟩)
      = { preview := Preview.span "text" (joinRuns ⟨c :: cs⟩), onclick := textEntry ⟨c :: cs⟩ }) ∧
    ∀ p : String, createLi (imageEntry p)
      = { preview := Preview.img ("data:image/png;base64," ++ p), onclick := imageEntry p } := by
  refine ⟨by decide, ?_, ?_, ?_⟩
  · have h := rows_after_history U (bootstrap "" []) [textEntry ""] []
      (fun ev hev => by cases hev) (step_history_filterValue U _ _)
    rw [run_cons, h]
    decide
  · intro c cs
    refine createLi_of_text _ _ ?_ ?_
    · simp [textEntry, Content.get]
    · intro h
      have := congrArg String.data h
      cases this
  · intro p
    rw [createLi_of_falsy]
    · simp [imageEntry, Content.get, toStr]
    · simp [imageEntry, Content.get, truthy]

/-! ## Entries as received: what `render` shows and when it stops -/

theorem wire_createLi_onclick (e : Wire.Entry) (li : Wire.Li) (h : Wire.createLi e = some li) :
    li.onclick = e := by
  unfold Wire.createLi at h
  split at h
  · cases h
  · split at h
    · split at h
      · injection h with h
        rw [← h]
      · cases h
    · split at h
      · cases h
      · split at h
        · cases h
        · injection h with h
          rw [← h]

theorem wire_forEach_onclicks (kept : List Wire.Entry) :
    (Wire.forEach kept).1.map Wire.Li.onclick
      = kept.takeWhile fun e => (Wire.createLi e).isSome := by
  induction kept with
  | nil => rfl
  | cons e es ih =>
    rw [Wire.forEach]
    cases h : Wire.createLi e with
    | none => simp [List.takeWhile, h]
    | some li =>
      simp only [List.map_cons, ih, List.takeWhile, h, Option.isSome_some]
      rw [wire_createLi_onclick e li h]

theorem wire_forEach_thrown (kept : List Wire.Entry) :
    (Wire.forEach kept).2 = true ↔ ∃ e ∈ kept, Wire.createLi e = none := by
  induction kept with
  | nil => simp [Wire.forEach]
  | cons e es ih =>
    rw [Wire.forEach]
    cases h : Wire.createLi e with
    | none => simp [h]
    | some li => simp [h, ih]

theorem takeWhile_eq_self_of_all (kept : List Wire.Entry) (p : Wire.Entry → Bool)
    (h : ∀ e ∈ kept, p e = true) : kept.takeWhile p = kept := by
  induction kept with
  | nil => rfl
  | cons e es ih =>
    rw [List.takeWhile, h e (List.mem_cons_self _ _), ih (fun d hd => h d (List.mem_cons_of_mem _ hd))]

theorem wire_stringify (c : Content) :
    Wire.stringify (Entry.wire { content := c }).content = some (JSON.stringify c) := by
  simp only [Entry.wire, Wire.stringify, JSON.stringify, List.map_map]
  rfl

theorem wire_keep (needle : String) (e : Entry) :
    Wire.keep U needle e.wire = some (keep U needle e) := by
  rw [Wire.keep, keep]
  split
  · rfl
  · rw [show e = { content := e.content } from rfl, wire_stringify]

theorem wire_filter (g : Entry → Bool) (f : Wire.Entry → Option Bool)
    (h : ∀ e, f e.wire = some (g e)) (l : List Entry) :
    Wire.filter f (l.map Entry.wire) = some ((l.filter g).map Entry.wire) := by
  induction l with
  | nil => rfl
  | cons e es ih =>
    rw [List.map_cons, Wire.filter, h e, ih]
    cases hg : g e <;> simp [List.filter, hg]

theorem wire_get (c : Content) (key : String) :
    (Entry.wire { content := c }).content.get key = some ((c.get key).map Wire.Value.str) := by
  simp only [Entry.wire, Wire.Content.get, Content.get, List.find?_map, Option.map_map]
  rfl

theorem wire_createLi (e : Entry) : Wire.createLi e.wire = some (createLi e).wire := by
  rw [show e = { content := e.content } from rfl]
  simp only [Wire.createLi, wire_get, createLi, Li.wire]
  cases ht : e.content.get "Text" with
  | none =>
    cases hi : e.content.get "ImageBase64" <;>
      simp [Wire.truthy, truthy, Wire.toStr, toStr]
  | some t =>
    by_cases hne : t = ""
    · cases hi : e.content.get "ImageBase64" <;>
        simp [Wire.truthy, truthy, Wire.toStr, toStr, hne]
    · simp [Wire.truthy, truthy, hne]

theorem wire_forEach (l : List Entry) :
    Wire.forEach (l.map Entry.wire) = ((l.map createLi).map Li.wire, false) := by
  induction l with
  | nil => rfl
  | cons e es ih =>
    rw [List.map_cons, Wire.forEach, wire_createLi, ih]
    rfl

/-- On well-formed entries the render of received entries never throws and shows the
rows of `render`. -/
theorem wire_render (s : State) :
    Wire.render U (s.log.map Entry.wire) s.filterValue = ((render U s).list.map Li.wire, false) := by
  rw [Wire.render, Wire.view, ← List.map_reverse,
    wire_filter (keep U (toLowerCase U s.filterValue)) _ (fun e => wire_keep U _ e)]
  simp only
  rw [wire_forEach, render_list]
  rfl

theorem wire_filter_all (f : Wire.Entry → Option Bool) (l : List Wire.Entry)
    (h : ∀ e ∈ l, f e = some true) : Wire.filter f l = some l := by
  induction l with
  | nil => rfl
  | cons e es ih =>
    rw [Wire.filter, h e (List.mem_cons_self _ _),
      ih (fun d hd => h d (List.mem_cons_of_mem _ hd))]
    rfl

theorem wire_view_empty (items : List Wire.Entry) (v : String) (h : toLowerCase U v = "") :
    Wire.view U items v = some items.reverse := by
  rw [Wire.view, h]
  exact wire_filter_all _ _ (fun e _ => rfl)

theorem wire_createLi_of_no_keys (e : Wire.Entry) (h₁ : e.content.get "Text" = some none)
    (h₂ : e.content.get "ImageBase64" = some none) : (Wire.createLi e).isSome = true := by
  simp [Wire.createLi, h₁, h₂, Wire.truthy, Wire.toStr]

theorem wire_createLi_of_string (e : Wire.Entry) (t : String)
    (h : e.content.get "Text" = some (some (Wire.Value.str t))) (ht : t ≠ "") :
    (Wire.createLi e).isSome = true := by
  simp [Wire.createLi, h, Wire.truthy, ht]

theorem wire_createLi_of_not_string (e : Wire.Entry) (json : String) (text : Option String)
    (h : e.content.get "Text" = some (some (Wire.Value.other json text true))) :
    Wire.createLi e = none := by
  simp [Wire.createLi, h, Wire.truthy]

theorem wire_createLi_of_no_content (e : Wire.Entry)
    (h : e.content = Wire.Content.null ∨ e.content = Wire.Content.undefined) :
    Wire.createLi e = none := by
  rcases h with h | h <;> simp [Wire.createLi, h, Wire.Content.get]

/-- C10 as stated fails.  An entry whose content has neither key and an entry whose content
has both keys are shown, each with a row of its own.  And a valid entry is not shown when a
malformed entry comes before it in the view and makes `addLi` throw: one whose content is
`null`, or one that has both keys with the number 5 as `Text`. -/
theorem malformed_entries_shown :
    (Wire.render excerpt
        [Wire.Entry.mk (Wire.Content.obj []),
         Wire.Entry.mk (Wire.Content.obj
           [("Text", Wire.Value.str "hi"), ("ImageBase64", Wire.Value.str "QUJD")])]
        "").1.map Wire.Li.onclick
      = [Wire.Entry.mk (Wire.Content.obj
           [("Text", Wire.Value.str "hi"), ("ImageBase64", Wire.Value.str "QUJD")]),
         Wire.Entry.mk (Wire.Content.obj [])] ∧
    Wire.render excerpt [(textEntry "ok").wire, Wire.Entry.mk Wire.Content.null] ""
      = ([], true) ∧
    Wire.render excerpt
        [(textEntry "ok").wire,
         Wire.Entry.mk (Wire.Content.obj
           [("Text", Wire.Value.other "5" (some "5") true), ("ImageBase64", Wire.Value.str "QUJD")])]
        "" = ([], true) := by
  decide

/-- C10 (amended): malformed entries are not rejected, and one of them can end the render.
The rows after a render are those of the entries of the filtered view, valid or not, in
view order, up to the first entry for which `addLi` throws; that entry and the entries
after it get no row, and an error escapes exactly when there is such an entry.  When no
entry makes `addLi` throw, every entry of the view has its row.  An entry whose content has
neither key, or has both keys with a non-empty string as `Text`, does not make `addLi`
throw; an entry whose content is `null` or `undefined`, or whose `Text` is truthy and not a
string, does.
When the filter callback throws, no row is shown; with an empty filter value it does not
throw and the view is the whole log, newest first.  On a log of well-formed entries nothing
throws and the rows are those of `render`. -/
theorem malformed_entries_not_rejected (U : CaseTables) (items : List Wire.Entry) (v : String) :
    (∀ kept : List Wire.Entry, Wire.view U items v = some kept →
      (Wire.render U items v).1.map Wire.Li.onclick
          = kept.takeWhile (fun e => (Wire.createLi e).isSome) ∧
      ((Wire.render U items v).2 = true ↔ ∃ e ∈ kept, Wire.createLi e = none) ∧
      ((∀ e ∈ kept, (Wire.createLi e).isSome = true) →
        (Wire.render U items v).1.map Wire.Li.onclick = kept)) ∧
    (Wire.view U items v = none → Wire.render U items v = ([], true)) ∧
    (toLowerCase U v = "" → Wire.view U items v = some items.reverse) ∧
    (∀ e : Wire.Entry, e.content.get "Text" = some none →
      e.content.get "ImageBase64" = some none → (Wire.createLi e).isSome = true) ∧
    (∀ (e : Wire.Entry) (t : String) (p : Wire.Value),
      e.content.get "Text" = some (some (Wire.Value.str t)) → t ≠ "" →
      e.content.get "ImageBase64" = some (some p) → (Wire.createLi e).isSome = true) ∧
    (∀ e : Wire.Entry, e.content = Wire.Content.null ∨ e.content = Wire.Content.undefined →
      Wire.createLi e = none) ∧
    (∀ (e : Wire.Entry) (json : String) (text : Option String),
      e.content.get "Text" = some (some (Wire.Value.other json text true)) →
      Wire.createLi e = none) ∧
    ∀ s : State, Wire.render U (s.log.map Entry.wire) s.filterValue
      = ((render U s).list.map Li.wire, false) := by
  refine ⟨?_, ?_, wire_view_empty U items v, ?_, ?_, wire_createLi_of_no_content,
    wire_createLi_of_not_string, wire_render U⟩
  · intro kept hv
    have hr : Wire.render U items v = Wire.forEach kept := by
      rw [Wire.render, hv]
    rw [hr]
    refine ⟨wire_forEach_onclicks kept, wire_forEach_thrown kept, ?_⟩
    intro hall
    rw [wire_forEach_onclicks, takeWhile_eq_self_of_all kept _ hall]
  · intro hv
    rw [Wire.render, hv]
  · intro e h₁ h₂
    exact wire_createLi_of_no_keys e h₁ h₂
  · intro e t p h ht _
    exact wire_createLi_of_string e t h ht

theorem malformed_entries_not_rejected_witness :
    (Wire.render excerpt
        [Wire.Entry.mk Wire.Content.null, (textEntry "ok").wire,
         Wire.Entry.mk (Wire.Content.obj [])] "").1.map Wire.Li.onclick
      = [Wire.Entry.mk (Wire.Content.obj []), (textEntry "ok").wire] ∧
    (Wire.createLi (Wire.Entry.mk (Wire.Content.obj []))).isSome = true :=
  have h := malformed_entries_not_rejected excerpt
    [Wire.Entry.mk Wire.Content.null, (textEntry "ok").wire, Wire.Entry.mk (Wire.Content.obj [])]
    ""
  ⟨(h.1 [Wire.Entry.mk (Wire.Content.obj []), (textEntry "ok").wire,
      Wire.Entry.mk Wire.Content.null] (by decide)).1,
   h.2.2.2.1 (Wire.Entry.mk (Wire.Content.obj [])) (by decide) (by decide)⟩


end ClipVault
